import Mathlib

/-!
# Manager configuration and the local instance backend

A shallow embedding of `manager/main.go` (`parseConfig`) and `vm/local/local.go`
(`ctor`, `Run`).

* Go `map[int]bool` values are only ever `true` in this code, so a map is modelled by
  its key set, a `Finset Int`; the `nil` map is `none`.
* `fatalf` (which ends the process) and a nil-pointer panic are modelled by `Except.error`.
* The syscall table of package `sys` is data that `parseConfig` only reads; it is a
  parameter `Sys` of the embedding.
* File reading, JSON decoding and `os.Stat` are environment queries, passed as functions.
* System calls with an effect are recorded, in program order, in a list of `Op`.
-/

namespace Syzkaller

/-! ## The `sys` package, as far as `parseConfig` uses it -/

/-- One entry of `sys.Calls`: the fields `parseConfig` reads. -/
structure Call where
  ID : Int
  CallName : String
  deriving DecidableEq, Repr

/-- The syscall table: `sys.Calls` and `sys.CallMap` (a Go `map[string]*Call`; a missing
key yields the nil pointer, here `none`). -/
structure Sys where
  Calls : List Call
  CallMap : String → Option Call

/-! ## `manager/main.go` -/

abbrev Bytes := List UInt8

/-- The `Config` struct (`Type_` is the field `Type`, a reserved word in Lean). `Params`
is an uninterpreted JSON object. -/
structure Config where
  Name : String
  Http : String
  Master : String
  Workdir : String
  Vmlinux : String
  Type_ : String
  Count : Int
  Port : Int
  Nocover : Bool
  Params : List (String × String)
  Enable_Syscalls : List String
  Disable_Syscalls : List String
  deriving DecidableEq, Repr

/-- What `parseConfig` reads from its surroundings: the `-config` flag,
`ioutil.ReadFile` and `json.Unmarshal` into a fresh `Config`. -/
structure ManagerEnv where
  flagConfig : String
  ReadFile : String → Except String Bytes
  Unmarshal : Bytes → Except String Config

/-- The ways `parseConfig` ends the process: one constructor per `fatalf` call, in source
order, and `nilDeref` for the panic of `sys.CallMap[..].ID` on a missing key. -/
inductive Fatal where
  | noConfigFlag
  | readFile (err : String)
  | parseFile (err : String)
  | emptyName
  | emptyHttp
  | emptyMaster
  | emptyWorkdir
  | emptyVmlinux
  | emptyType
  | invalidCount (count : Int)
  | unknownEnabled (c : String)
  | unknownDisabled (c : String)
  | nilDeref
  deriving DecidableEq, Repr

/-- Inner loop of lines 96-101: `for _, call := range sys.Calls` with
`syscalls[call.ID] = true; n++` on a match. Returns the map and `n`. -/
def enableName (calls : List Call) (c : String) (syscalls : Finset Int) : Finset Int × Nat :=
  calls.foldl
    (fun acc call => if call.CallName = c then (insert call.ID acc.1, acc.2 + 1) else acc)
    (syscalls, 0)

/-- Lines 94-105: the loop over `cfg.Enable_Syscalls`. -/
def enableLoop (calls : List Call) : List String → Finset Int → Except Fatal (Finset Int)
  | [], syscalls => .ok syscalls
  | c :: rest, syscalls =>
    let r := enableName calls c syscalls
    if r.2 = 0 then .error (.unknownEnabled c) else enableLoop calls rest r.1

/-- Lines 107-109: every catalog ID is put into the map. -/
def enableAll (calls : List Call) (syscalls : Finset Int) : Finset Int :=
  calls.foldl (fun acc call => insert call.ID acc) syscalls

/-- Inner loop of lines 113-118: `delete(syscalls, call.ID); n++` on a match. -/
def disableName (calls : List Call) (c : String) (syscalls : Finset Int) : Finset Int × Nat :=
  calls.foldl
    (fun acc call => if call.CallName = c then (acc.1.erase call.ID, acc.2 + 1) else acc)
    (syscalls, 0)

/-- Lines 111-122: the loop over `cfg.Disable_Syscalls`. -/
def disableLoop (calls : List Call) : List String → Finset Int → Except Fatal (Finset Int)
  | [], syscalls => .ok syscalls
  | c :: rest, syscalls =>
    let r := disableName calls c syscalls
    if r.2 = 0 then .error (.unknownDisabled c) else disableLoop calls rest r.1

/-- Lines 90-126: the syscall set of a config that passed the field checks. -/
def resolveSyscalls (sys : Sys) (cfg : Config) : Except Fatal (Option (Finset Int)) :=
  if cfg.Enable_Syscalls.length ≠ 0 ∨ cfg.Disable_Syscalls.length ≠ 0 then
    let syscalls : Finset Int := ∅
    let enabled :=
      if cfg.Enable_Syscalls.length ≠ 0 then enableLoop sys.Calls cfg.Enable_Syscalls syscalls
      else .ok (enableAll sys.Calls syscalls)
    match enabled with
    | .error e => .error e
    | .ok syscalls =>
      match disableLoop sys.Calls cfg.Disable_Syscalls syscalls with
      | .error e => .error e
      | .ok syscalls =>
        match sys.CallMap "mmap" with
        | none => .error .nilDeref
        | some mmap =>
          let syscalls := insert mmap.ID syscalls
          match sys.CallMap "clock_gettime" with
          | none => .error .nilDeref
          | some clock => .ok (some (insert clock.ID syscalls))
  else .ok none

/-- Lines 68-88: the field checks, in source order. -/
def checkFields (cfg : Config) : Except Fatal Unit :=
  if cfg.Name = "" then .error .emptyName
  else if cfg.Http = "" then .error .emptyHttp
  else if cfg.Master = "" then .error .emptyMaster
  else if cfg.Workdir = "" then .error .emptyWorkdir
  else if cfg.Vmlinux = "" then .error .emptyVmlinux
  else if cfg.Type_ = "" then .error .emptyType
  else if cfg.Count ≤ 0 ∨ cfg.Count > 1000 then .error (.invalidCount cfg.Count)
  else .ok ()

/-- The function `parseConfig` of `manager/main.go`. -/
def parseConfig (env : ManagerEnv) (sys : Sys) : Except Fatal (Config × Option (Finset Int)) :=
  if env.flagConfig = "" then .error .noConfigFlag
  else
    match env.ReadFile env.flagConfig with
    | .error err => .error (.readFile err)
    | .ok data =>
      match env.Unmarshal data with
      | .error err => .error (.parseFile err)
      | .ok cfg =>
        match checkFields cfg with
        | .error e => .error e
        | .ok () =>
          match resolveSyscalls sys cfg with
          | .error e => .error e
          | .ok syscalls => .ok (cfg, syscalls)

/-! ## `vm/local/local.go` -/

/-- The struct `params`. -/
structure params where
  Fuzzer : String
  Executor : String
  Parallel : Int
  deriving DecidableEq, Repr

/-- The struct `local` (a reserved word in Lean, hence the capital): `params` is embedded. -/
structure Local extends params where
  workdir : String
  syscalls : Option (Finset Int)
  id : Int
  mgrPort : Int
  deriving DecidableEq

/-- What `ctor` reads from its surroundings: `json.Unmarshal` into a fresh `params`,
the error of `os.Stat` on a path (`none` for a nil error) and whether `os.Open` of the
exception-trace file succeeds. -/
structure LocalEnv where
  Unmarshal : Bytes → Except String params
  Stat : String → Option String
  OpenEtrace : Bool

/-- What `cmd.Start()` returned: an error, or nil with `cmd.Process.Pid = pid`. -/
inductive StartResult where
  | failed (err : String)
  | started (pid : Int)
  deriving DecidableEq, Repr

/-- The calls with an effect on the host that `ctor` and the main goroutine of `Run` make,
in the order made; `Start` and `Wait` are recorded when they return, with what they
returned. `Start args dir res` is `cmd.Start()` for a command with `cmd.Args = args` and
`cmd.Dir = dir` (output streams inherited, own process group); `GoWatchdog pid timeout` is
the `go` statement of lines 101-111; `Wait pid err` is `cmd.Wait()` of process `pid`
returning `err`; `CloseDone` is `close(done)`; `Sleep d` is `time.Sleep(d)`, `d` in
nanoseconds. -/
inductive Op where
  | MkdirAll (path : String) (perm : Nat)
  | Open (path : String)
  | Write (path : String) (data : Bytes)
  | Close (path : String)
  | Setrlimit (resource : String) (cur : Nat) (max : Nat)
  | Printf (msg : String)
  | Start (args : List String) (dir : String) (res : StartResult)
  | GoWatchdog (pid : Int) (timeout : Nat)
  | Wait (pid : Int) (err : Option String)
  | CloseDone
  | Sleep (d : Nat)
  deriving DecidableEq, Repr

/-- The errors `ctor` returns, one constructor per `fmt.Errorf`, in source order. -/
inductive CtorError where
  | unmarshal (err : String)
  | fuzzerMissing (path : String) (err : String)
  | executorMissing (path : String) (err : String)
  | badParallel (p : Int)
  deriving DecidableEq, Repr

def etracePath : String := "/proc/sys/debug/exception-trace"

/-- The function `ctor` of `vm/local/local.go`: the returned pair `(vm.Instance, error)` as an
`Except`, and the effects performed, in order. -/
def ctor (env : LocalEnv) (workdir : String) (syscalls : Option (Finset Int))
    (port index : Int) (paramsData : Bytes) : Except CtorError Local × List Op :=
  match env.Unmarshal paramsData with
  | .error err => (.error (.unmarshal err), [])
  | .ok p =>
    match env.Stat p.Fuzzer with
    | some err => (.error (.fuzzerMissing p.Fuzzer err), [])
    | none =>
      match env.Stat p.Executor with
      | some err => (.error (.executorMissing p.Executor err), [])
      | none =>
        let p : params := if p.Parallel = 0 then { p with Parallel := 1 } else p
        if p.Parallel ≤ 0 ∨ p.Parallel > 100 then (.error (.badParallel p.Parallel), [])
        else
          let etrace : List Op :=
            if env.OpenEtrace then
              [.Open etracePath, .Write etracePath ['0'.toNat.toUInt8], .Close etracePath]
            else [.Open etracePath]
          let ops : List Op :=
            [.MkdirAll workdir 0o770] ++ etrace ++ [.Setrlimit "RLIMIT_CORE" 0 0]
          (.ok { toparams := p, workdir := workdir, syscalls := syscalls, id := index,
                 mgrPort := port }, ops)

/-- The verb `%v` of package `fmt` on an `int`: decimal, with a minus sign when negative. -/
def Sprint (i : Int) : String := toString i

/-- Go `len` of a `map[int]bool`; the nil map has length 0. -/
def mapLen : Option (Finset Int) → Nat
  | none => 0
  | some m => m.card

/-- The keys of a map; the nil map has none. -/
def mapKeys : Option (Finset Int) → Finset Int
  | none => ∅
  | some m => m

/-- Go leaves the order of `range` over a map open: `order` is one possible order when it
lists every key exactly once. -/
def RangeOrder (m : Option (Finset Int)) (order : List Int) : Prop :=
  order.Nodup ∧ ∀ c, c ∈ order ↔ c ∈ mapKeys m

instance (m : Option (Finset Int)) (order : List Int) : Decidable (RangeOrder m order) :=
  decidable_of_iff (order.Nodup ∧ order.toFinset = mapKeys m) (by
    unfold RangeOrder
    constructor
    · rintro ⟨h1, h2⟩
      exact ⟨h1, fun c => by rw [← h2, List.mem_toFinset]⟩
    · rintro ⟨h1, h2⟩
      exact ⟨h1, Finset.ext fun c => by rw [List.mem_toFinset, h2]⟩)

/-- Lines 84-87: the buffer after `fmt.Fprintf(buf, ",%v", c)` for each key, in `range`
order. -/
def callsBuf (order : List Int) : String :=
  order.foldl (fun buf c => buf ++ "," ++ Sprint c) ""

/-- The slice `s[1:]` of a string whose first byte, if any, is a one-byte character; it
panics (`none`) on the empty string. -/
def sliceFrom1 (s : String) : Option String :=
  if s = "" then none else some (s.drop 1)

/-- Lines 78 and 81-89: `cmd.Args` as built in one iteration of `Run`; `order` is the order
in which `range loc.syscalls` yields the keys. `exec.Command` puts the program name
first. `none` stands for the panic of the slice expression. -/
def cmdArgs (loc : Local) (order : List Int) : Option (List String) :=
  let name := "local-" ++ Sprint loc.id
  let args := [loc.Fuzzer, "-name", name, "-saveprog", "-executor", loc.Executor,
    "-manager", "localhost:" ++ Sprint loc.mgrPort, "-parallel", Sprint loc.Parallel]
  if mapLen loc.syscalls ≠ 0 then
    match sliceFrom1 (callsBuf order) with
    | none => none
    | some calls => some (args ++ ["-calls=" ++ calls])
  else some args

/-- The constants `time.Second` and `time.Hour`, in nanoseconds. -/
def Second : Nat := 1000000000

def Hour : Nat := 3600 * Second

/-- What the surroundings decide for one launch: `cmd.Start` fails with `err`, or it
succeeds with process `pid`, and `cmd.Wait` later returns `waitErr` (`none` for a clean
exit), after the process ended by itself or was killed by the watchdog goroutine. -/
inductive Outcome where
  | startFailed (err : String)
  | exited (pid : Int) (waitErr : Option String) (killedByWatchdog : Bool)
  deriving DecidableEq, Repr

/-- The input of one loop iteration: the `range` order of the map and the outcome. -/
structure Launch where
  order : List Int
  outcome : Outcome
  deriving DecidableEq, Repr

/-- How one pass through the loop body ends. -/
inductive Ctl where
  | next
  | continue_
  | panic
  deriving DecidableEq, Repr

/-- The verb `%v` on an `error` value. -/
def fmtErr : Option String → String
  | none => "<nil>"
  | some e => e

/-- Lines 81-115: one pass through the body of the loop of `Run`, on the main goroutine. -/
def iteration (loc : Local) (l : Launch) : List Op × Ctl :=
  match cmdArgs loc l.order with
  | none => ([], .panic)
  | some args =>
    match l.outcome with
    | .startFailed err =>
      ([.Start args loc.workdir (.failed err),
        .Printf ("failed to start fuzzer binary: " ++ err),
        .Sleep (10 * Second)], .continue_)
    | .exited pid waitErr _ =>
      ([.Start args loc.workdir (.started pid), .GoWatchdog pid Hour, .Wait pid waitErr,
        .CloseDone, .Printf ("fuzzer binary exited: " ++ fmtErr waitErr),
        .Sleep (10 * Second)], .next)

/-- Where `Run` stands after the launches it was given. -/
inductive RunStatus where
  | looping (run : Nat)
  | panicked (run : Nat)
  deriving DecidableEq, Repr

/-- The loop `for run := 0; ; run++` of `Run`, fed with the given launches: the effects in
order and where the loop stands. The loop has no condition, `break` or `return`. -/
def runLoop (loc : Local) : Nat → List Launch → List Op × RunStatus
  | run, [] => ([], .looping run)
  | run, l :: rest =>
    match iteration loc l with
    | (ops, .panic) => (ops, .panicked run)
    | (ops, _) => (ops ++ (runLoop loc (run + 1) rest).1, (runLoop loc (run + 1) rest).2)

/-- The method `Run` of `vm/local/local.go`, observed over finitely many launches. -/
def Run (loc : Local) (launches : List Launch) : List Op × RunStatus :=
  let name := "local-" ++ Sprint loc.id
  let r := runLoop loc 0 launches
  (.Printf (name ++ ": started\n") :: r.1, r.2)

/-! ## Specification vocabulary for the syscall set -/

/-- A name is known when it is the call name of at least one catalog entry. -/
def Known (calls : List Call) (c : String) : Prop := ∃ call ∈ calls, call.CallName = c

instance (calls : List Call) (c : String) : Decidable (Known calls c) :=
  inferInstanceAs (Decidable (∃ call ∈ calls, call.CallName = c))

/-- IDs of all catalog entries whose call name is one of `names`. -/
def idsOf (calls : List Call) (names : List String) : Finset Int :=
  ((calls.filter (fun call => call.CallName ∈ names)).map (fun call => call.ID)).toFinset

/-- IDs of all catalog entries. -/
def allIDs (calls : List Call) : Finset Int := (calls.map (fun call => call.ID)).toFinset

/-- The config file was named, read and decoded to `cfg` (lines 57-67 passed). -/
def Parsed (env : ManagerEnv) (cfg : Config) : Prop :=
  env.flagConfig ≠ "" ∧
    ∃ data, env.ReadFile env.flagConfig = .ok data ∧ env.Unmarshal data = .ok cfg

/-- The set `parseConfig` starts the disable loop from. -/
def baseSet (sys : Sys) (cfg : Config) : Finset Int :=
  if cfg.Enable_Syscalls = [] then allIDs sys.Calls else idsOf sys.Calls cfg.Enable_Syscalls


/-! ## Specification vocabulary for the trace of `Run` -/

/-- A launch attempt: the call `cmd.Start()`. -/
def isStart : Op → Bool
  | .Start _ _ _ => true
  | _ => false

/-- What `cmd.Start()` returns in a launch with the given outcome. -/
def startResult : Outcome → StartResult
  | .startFailed err => .failed err
  | .exited pid _ _ => .started pid

/-- The trace `pre` ends with the events of the launch `prev` and its backoff. When the
start of `prev` failed with `err`: the failed start, the log line for `err` and the
10-second sleep. When `prev` started process `pid`, whose wait returned `waitErr`: the
start, the watchdog for `pid`, the return of `cmd.Wait()` for `pid` with `waitErr`,
`close(done)`, the log line and the 10-second sleep. -/
def EndsWithLaunch (loc : Local) (prev : Launch) (pre : List Op) : Prop :=
  ∃ pre0 args, cmdArgs loc prev.order = some args ∧
    ((∃ err, prev.outcome = .startFailed err ∧ pre = pre0 ++
        [Op.Start args loc.workdir (.failed err),
          Op.Printf ("failed to start fuzzer binary: " ++ err), Op.Sleep (10 * Second)])
     ∨ (∃ pid waitErr killed, prev.outcome = .exited pid waitErr killed ∧ pre = pre0 ++
        [Op.Start args loc.workdir (.started pid), Op.GoWatchdog pid Hour,
          Op.Wait pid waitErr, Op.CloseDone,
          Op.Printf ("fuzzer binary exited: " ++ fmtErr waitErr), Op.Sleep (10 * Second)]))

/-! ## Concrete inputs -/

def mmapCall : Call := ⟨0, "mmap"⟩

def clockCall : Call := ⟨1, "clock_gettime"⟩

def openCall : Call := ⟨2, "open"⟩

/-- A second entry with call name `mmap`, as a variant of a syscall has; the name map
holds it under the key `mmap$variant`. -/
def mmapVariant : Call := ⟨3, "mmap"⟩

/-- A small table with one entry per call name. -/
def plainSys : Sys where
  Calls := [mmapCall, clockCall, openCall]
  CallMap := fun n =>
    if n = "mmap" then some mmapCall
    else if n = "clock_gettime" then some clockCall
    else if n = "open" then some openCall
    else none

/-- A table in which two entries have the call name `mmap`. -/
def variantSys : Sys where
  Calls := [mmapCall, clockCall, openCall, mmapVariant]
  CallMap := fun n =>
    if n = "mmap" then some mmapCall
    else if n = "clock_gettime" then some clockCall
    else if n = "open" then some openCall
    else if n = "mmap$variant" then some mmapVariant
    else none

/-- A config with the six strings set and the given count and syscall lists. -/
def cfgWith (count : Int) (enable disable : List String) : Config :=
  { Name := "t", Http := "h", Master := "m", Workdir := "/tmp/w", Vmlinux := "v",
    Type_ := "local", Count := count, Port := 0, Nocover := false, Params := [],
    Enable_Syscalls := enable, Disable_Syscalls := disable }

/-- The config of the scenario: count 2 and `enable_syscalls: ["mmap"]`. -/
def scenarioCfg : Config := cfgWith 2 ["mmap"] []

/-- Surroundings in which the config file decodes to `cfg`. -/
def envOf (cfg : Config) : ManagerEnv where
  flagConfig := "manager.cfg"
  ReadFile := fun _ => .ok []
  Unmarshal := fun _ => .ok cfg

/-- Surroundings of `ctor` in which the parameter bytes decode to `p` and exactly the
paths in `files` exist. -/
def localEnvOf (p : params) (files : List String) : LocalEnv where
  Unmarshal := fun _ => .ok p
  Stat := fun path => if path ∈ files then none else some "no such file or directory"
  OpenEtrace := true

def fuzzerPath : String := "/bin/syz-fuzzer"

def executorPath : String := "/bin/syz-executor"

/-- A worker with index 0, port 1234, parallelism 2 and the syscall set `{0, 1}`. -/
def workerWithSet : Local :=
  { Fuzzer := fuzzerPath, Executor := executorPath, Parallel := 2, workdir := "/tmp/w",
    syscalls := some {0, 1}, id := 0, mgrPort := 1234 }

/-- Three launches of `workerWithSet`: a start failure, a process killed by the watchdog,
a clean exit. -/
def threeLaunches : List Launch :=
  [⟨[0, 1], .startFailed "exec: not found"⟩,
   ⟨[1, 0], .exited 4242 (some "signal: killed") true⟩,
   ⟨[0, 1], .exited 4243 none false⟩]

/-! ## Lemmas on the loops of `parseConfig` -/

theorem mem_idsOf {calls : List Call} {names : List String} {i : Int} :
    i ∈ idsOf calls names ↔ ∃ call ∈ calls, call.CallName ∈ names ∧ call.ID = i := by
  simp [idsOf, and_assoc]

theorem mem_allIDs {calls : List Call} {i : Int} :
    i ∈ allIDs calls ↔ ∃ call ∈ calls, call.ID = i := by
  simp [allIDs]

theorem enableName_foldl (c : String) (calls : List Call) (acc : Finset Int × Nat) :
    calls.foldl
      (fun acc call => if call.CallName = c then (insert call.ID acc.1, acc.2 + 1) else acc) acc
    = (acc.1 ∪ idsOf calls [c], acc.2 + (calls.filter (fun call => call.CallName = c)).length) := by
  induction calls generalizing acc with
  | nil => simp [idsOf]
  | cons call rest ih =>
    rw [List.foldl_cons, ih]
    by_cases h : call.CallName = c
    · simp only [h, if_true, List.filter_cons, decide_True, List.length_cons]
      refine Prod.ext ?_ (by simp only; omega)
      ext i
      simp only [Finset.mem_union, Finset.mem_insert, mem_idsOf, List.mem_cons, List.mem_singleton,
        List.not_mem_nil, or_false]
      constructor
      · rintro ((rfl | hi) | ⟨d, hd, hc, rfl⟩)
        · exact Or.inr ⟨call, Or.inl rfl, h, rfl⟩
        · exact Or.inl hi
        · exact Or.inr ⟨d, Or.inr hd, hc, rfl⟩
      · rintro (hi | ⟨d, rfl | hd, hc, rfl⟩)
        · exact Or.inl (Or.inr hi)
        · exact Or.inl (Or.inl rfl)
        · exact Or.inr ⟨d, hd, hc, rfl⟩
    · simp only [h, if_false, List.filter_cons, decide_False]
      refine Prod.ext ?_ rfl
      ext i
      simp only [Finset.mem_union, mem_idsOf, List.mem_cons, List.mem_singleton,
        List.not_mem_nil, or_false]
      constructor
      · rintro (hi | ⟨d, hd, hc, rfl⟩)
        · exact Or.inl hi
        · exact Or.inr ⟨d, Or.inr hd, hc, rfl⟩
      · rintro (hi | ⟨d, rfl | hd, hc, rfl⟩)
        · exact Or.inl hi
        · exact absurd hc h
        · exact Or.inr ⟨d, hd, hc, rfl⟩

theorem filter_length_eq_zero_iff (calls : List Call) (c : String) :
    (calls.filter (fun call => call.CallName = c)).length = 0 ↔ ¬ Known calls c := by
  simp [Known, List.filter_eq_nil_iff]

theorem enableName_fst (calls : List Call) (c : String) (s : Finset Int) :
    (enableName calls c s).1 = s ∪ idsOf calls [c] := by
  simp [enableName, enableName_foldl]

theorem enableName_snd (calls : List Call) (c : String) (s : Finset Int) :
    (enableName calls c s).2 = 0 ↔ ¬ Known calls c := by
  simp [enableName, enableName_foldl, Known]

theorem idsOf_nil (calls : List Call) : idsOf calls [] = ∅ := by
  simp [idsOf]

theorem idsOf_cons (calls : List Call) (c : String) (names : List String) :
    idsOf calls (c :: names) = idsOf calls [c] ∪ idsOf calls names := by
  ext i
  simp only [Finset.mem_union, mem_idsOf, List.mem_cons, List.mem_singleton, List.not_mem_nil,
    or_false]
  constructor
  · rintro ⟨d, hd, hc | hc, rfl⟩
    · exact Or.inl ⟨d, hd, hc, rfl⟩
    · exact Or.inr ⟨d, hd, hc, rfl⟩
  · rintro (⟨d, hd, hc, rfl⟩ | ⟨d, hd, hc, rfl⟩)
    · exact ⟨d, hd, Or.inl hc, rfl⟩
    · exact ⟨d, hd, Or.inr hc, rfl⟩

/-- With every name known the enable loop adds exactly the matching IDs. -/
theorem enableLoop_ok (calls : List Call) (names : List String) (s : Finset Int)
    (h : ∀ c ∈ names, Known calls c) :
    enableLoop calls names s = .ok (s ∪ idsOf calls names) := by
  induction names generalizing s with
  | nil => simp [enableLoop, idsOf_nil]
  | cons c rest ih =>
    have hc : Known calls c := h c (List.mem_cons_self _ _)
    have hn : ¬ (enableName calls c s).2 = 0 := by
      rw [enableName_snd]; exact not_not.mpr hc
    rw [enableLoop]
    simp only [hn, if_false]
    rw [ih _ (fun d hd => h d (List.mem_cons_of_mem _ hd)), enableName_fst, idsOf_cons calls c rest,
      Finset.union_assoc]

/-- With some name unknown the enable loop stops at an unknown name of the list. -/
theorem enableLoop_error (calls : List Call) (names : List String) (s : Finset Int)
    (h : ∃ c ∈ names, ¬ Known calls c) :
    ∃ c ∈ names, ¬ Known calls c ∧ enableLoop calls names s = .error (.unknownEnabled c) := by
  induction names generalizing s with
  | nil => simp at h
  | cons c rest ih =>
    rw [enableLoop]
    by_cases hc : Known calls c
    · have hn : ¬ (enableName calls c s).2 = 0 := by
        rw [enableName_snd]; exact not_not.mpr hc
      simp only [hn, if_false]
      obtain ⟨d, hd, hdk⟩ := h
      rcases List.mem_cons.mp hd with rfl | hd
      · exact absurd hc hdk
      · obtain ⟨e, he, hek, hres⟩ := ih (enableName calls c s).1 ⟨d, hd, hdk⟩
        exact ⟨e, List.mem_cons_of_mem _ he, hek, hres⟩
    · have hn : (enableName calls c s).2 = 0 := (enableName_snd calls c s).mpr hc
      simp only [hn, if_true]
      exact ⟨c, List.mem_cons_self _ _, hc, rfl⟩

theorem enableAll_eq (calls : List Call) (s : Finset Int) :
    enableAll calls s = s ∪ allIDs calls := by
  unfold enableAll
  induction calls generalizing s with
  | nil => simp [allIDs]
  | cons call rest ih =>
    rw [List.foldl_cons, ih]
    ext i
    simp only [Finset.mem_union, Finset.mem_insert, mem_allIDs, List.mem_cons]
    constructor
    · rintro ((rfl | hi) | ⟨d, hd, rfl⟩)
      · exact Or.inr ⟨call, Or.inl rfl, rfl⟩
      · exact Or.inl hi
      · exact Or.inr ⟨d, Or.inr hd, rfl⟩
    · rintro (hi | ⟨d, rfl | hd, rfl⟩)
      · exact Or.inl (Or.inr hi)
      · exact Or.inl (Or.inl rfl)
      · exact Or.inr ⟨d, hd, rfl⟩

theorem disableName_foldl (c : String) (calls : List Call) (acc : Finset Int × Nat) :
    calls.foldl
      (fun acc call => if call.CallName = c then (acc.1.erase call.ID, acc.2 + 1) else acc) acc
    = (acc.1 \ idsOf calls [c], acc.2 + (calls.filter (fun call => call.CallName = c)).length) := by
  induction calls generalizing acc with
  | nil => simp [idsOf]
  | cons call rest ih =>
    rw [List.foldl_cons, ih]
    by_cases h : call.CallName = c
    · simp only [h, if_true, List.filter_cons, decide_True, List.length_cons]
      refine Prod.ext ?_ (by simp only; omega)
      ext i
      simp only [Finset.mem_sdiff, Finset.mem_erase, mem_idsOf, List.mem_cons, List.mem_singleton,
        List.not_mem_nil, or_false]
      constructor
      · rintro ⟨⟨hne, hi⟩, hno⟩
        refine ⟨hi, ?_⟩
        rintro ⟨d, rfl | hd, hc, rfl⟩
        · exact hne rfl
        · exact hno ⟨d, hd, hc, rfl⟩
      · rintro ⟨hi, hno⟩
        refine ⟨⟨?_, hi⟩, ?_⟩
        · rintro rfl
          exact hno ⟨call, Or.inl rfl, h, rfl⟩
        · rintro ⟨d, hd, hc, rfl⟩
          exact hno ⟨d, Or.inr hd, hc, rfl⟩
    · simp only [h, if_false, List.filter_cons, decide_False]
      refine Prod.ext ?_ rfl
      ext i
      simp only [Finset.mem_sdiff, mem_idsOf, List.mem_cons, List.mem_singleton,
        List.not_mem_nil, or_false]
      constructor
      · rintro ⟨hi, hno⟩
        refine ⟨hi, ?_⟩
        rintro ⟨d, rfl | hd, hc, rfl⟩
        · exact h hc
        · exact hno ⟨d, hd, hc, rfl⟩
      · rintro ⟨hi, hno⟩
        refine ⟨hi, ?_⟩
        rintro ⟨d, hd, hc, rfl⟩
        exact hno ⟨d, Or.inr hd, hc, rfl⟩

theorem disableName_fst (calls : List Call) (c : String) (s : Finset Int) :
    (disableName calls c s).1 = s \ idsOf calls [c] := by
  simp [disableName, disableName_foldl]

theorem disableName_snd (calls : List Call) (c : String) (s : Finset Int) :
    (disableName calls c s).2 = 0 ↔ ¬ Known calls c := by
  simp [disableName, disableName_foldl, Known]

/-- With every name known the disable loop removes exactly the matching IDs. -/
theorem disableLoop_ok (calls : List Call) (names : List String) (s : Finset Int)
    (h : ∀ c ∈ names, Known calls c) :
    disableLoop calls names s = .ok (s \ idsOf calls names) := by
  induction names generalizing s with
  | nil => simp [disableLoop, idsOf_nil]
  | cons c rest ih =>
    have hc : Known calls c := h c (List.mem_cons_self _ _)
    have hn : ¬ (disableName calls c s).2 = 0 := by
      rw [disableName_snd]; exact not_not.mpr hc
    rw [disableLoop]
    simp only [hn, if_false]
    rw [ih _ (fun d hd => h d (List.mem_cons_of_mem _ hd)), disableName_fst, idsOf_cons calls c rest,
      sdiff_sdiff_left]
    rfl

/-- With some name unknown the disable loop stops at an unknown name of the list. -/
theorem disableLoop_error (calls : List Call) (names : List String) (s : Finset Int)
    (h : ∃ c ∈ names, ¬ Known calls c) :
    ∃ c ∈ names, ¬ Known calls c ∧ disableLoop calls names s = .error (.unknownDisabled c) := by
  induction names generalizing s with
  | nil => simp at h
  | cons c rest ih =>
    rw [disableLoop]
    by_cases hc : Known calls c
    · have hn : ¬ (disableName calls c s).2 = 0 := by
        rw [disableName_snd]; exact not_not.mpr hc
      simp only [hn, if_false]
      obtain ⟨d, hd, hdk⟩ := h
      rcases List.mem_cons.mp hd with rfl | hd
      · exact absurd hc hdk
      · obtain ⟨e, he, hek, hres⟩ := ih (disableName calls c s).1 ⟨d, hd, hdk⟩
        exact ⟨e, List.mem_cons_of_mem _ he, hek, hres⟩
    · have hn : (disableName calls c s).2 = 0 := (disableName_snd calls c s).mpr hc
      simp only [hn, if_true]
      exact ⟨c, List.mem_cons_self _ _, hc, rfl⟩

theorem parseConfig_of_parsed {env : ManagerEnv} {cfg : Config} (sys : Sys)
    (hp : Parsed env cfg) :
    parseConfig env sys =
      match checkFields cfg with
      | .error e => .error e
      | .ok () =>
        match resolveSyscalls sys cfg with
        | .error e => .error e
        | .ok syscalls => .ok (cfg, syscalls) := by
  obtain ⟨hflag, data, hread, hdec⟩ := hp
  simp only [parseConfig, hflag, if_false, hread, hdec]

theorem checkFields_ok_iff (cfg : Config) :
    checkFields cfg = .ok () ↔
      cfg.Name ≠ "" ∧ cfg.Http ≠ "" ∧ cfg.Master ≠ "" ∧ cfg.Workdir ≠ "" ∧ cfg.Vmlinux ≠ "" ∧
        cfg.Type_ ≠ "" ∧ 1 ≤ cfg.Count ∧ cfg.Count ≤ 1000 := by
  unfold checkFields
  constructor
  · intro h
    split_ifs at h with h1 h2 h3 h4 h5 h6 h7
    exact ⟨h1, h2, h3, h4, h5, h6, by omega, by omega⟩
  · rintro ⟨h1, h2, h3, h4, h5, h6, h7, h8⟩
    have h9 : ¬ (cfg.Count ≤ 0 ∨ cfg.Count > 1000) := by omega
    simp only [h1, h2, h3, h4, h5, h6, h9, if_false]

theorem checkFields_error_of (cfg : Config)
    (h : cfg.Count ≤ 0 ∨ cfg.Count > 1000 ∨ cfg.Name = "" ∨ cfg.Http = "" ∨ cfg.Master = "" ∨
      cfg.Workdir = "" ∨ cfg.Vmlinux = "" ∨ cfg.Type_ = "") :
    ∃ e, checkFields cfg = .error e := by
  cases hc : checkFields cfg with
  | error e => exact ⟨e, rfl⟩
  | ok u =>
    obtain ⟨h1, h2, h3, h4, h5, h6, h7, h8⟩ := (checkFields_ok_iff cfg).mp hc
    rcases h with h | h | h | h | h | h | h | h
    · omega
    · omega
    all_goals contradiction

theorem resolveSyscalls_empty (sys : Sys) (cfg : Config)
    (hE : cfg.Enable_Syscalls = []) (hD : cfg.Disable_Syscalls = []) :
    resolveSyscalls sys cfg = .ok none := by
  simp [resolveSyscalls, hE, hD]

/-- Both loops pass when every listed name is known; what is left is the two `CallMap`
lookups of lines 124-125. -/
theorem resolveSyscalls_known (sys : Sys) (cfg : Config)
    (hne : cfg.Enable_Syscalls ≠ [] ∨ cfg.Disable_Syscalls ≠ [])
    (hE : ∀ c ∈ cfg.Enable_Syscalls, Known sys.Calls c)
    (hD : ∀ c ∈ cfg.Disable_Syscalls, Known sys.Calls c) :
    resolveSyscalls sys cfg =
      match sys.CallMap "mmap" with
      | none => .error .nilDeref
      | some mmap =>
        match sys.CallMap "clock_gettime" with
        | none => .error .nilDeref
        | some clock =>
          .ok (some (insert clock.ID (insert mmap.ID
            (baseSet sys cfg \ idsOf sys.Calls cfg.Disable_Syscalls)))) := by
  have hlen : cfg.Enable_Syscalls.length ≠ 0 ∨ cfg.Disable_Syscalls.length ≠ 0 := by
    simpa [List.length_eq_zero] using hne
  unfold resolveSyscalls
  simp only [hlen, if_true]
  by_cases he : cfg.Enable_Syscalls = []
  · have he0 : ¬ cfg.Enable_Syscalls.length ≠ 0 := by simp [he]
    rw [if_neg he0]
    simp only [enableAll_eq, disableLoop_ok _ _ _ hD, baseSet, he, if_true, Finset.empty_union]
  · have he0 : cfg.Enable_Syscalls.length ≠ 0 := by simpa [List.length_eq_zero] using he
    rw [if_pos he0]
    simp only [enableLoop_ok _ _ _ hE, disableLoop_ok _ _ _ hD, baseSet, he, if_false,
      Finset.empty_union]

/-- An unknown listed name makes the resolution stop with the matching `fatalf`. -/
theorem resolveSyscalls_unknown (sys : Sys) (cfg : Config)
    (h : (∃ c ∈ cfg.Enable_Syscalls, ¬ Known sys.Calls c) ∨
      (∃ c ∈ cfg.Disable_Syscalls, ¬ Known sys.Calls c)) :
    ∃ c, ¬ Known sys.Calls c ∧
      ((c ∈ cfg.Enable_Syscalls ∧ resolveSyscalls sys cfg = .error (.unknownEnabled c)) ∨
       (c ∈ cfg.Disable_Syscalls ∧ (∀ d ∈ cfg.Enable_Syscalls, Known sys.Calls d) ∧
          resolveSyscalls sys cfg = .error (.unknownDisabled c))) := by
  by_cases hE : ∃ c ∈ cfg.Enable_Syscalls, ¬ Known sys.Calls c
  · obtain ⟨c, hc, hk, hres⟩ := enableLoop_error sys.Calls cfg.Enable_Syscalls ∅ hE
    have he0 : cfg.Enable_Syscalls.length ≠ 0 := by
      intro h0
      rw [List.length_eq_zero] at h0
      rw [h0] at hc
      simp at hc
    refine ⟨c, hk, Or.inl ⟨hc, ?_⟩⟩
    unfold resolveSyscalls
    rw [if_pos (Or.inl he0)]
    simp only []
    rw [if_pos he0]
    simp only [hres]
  · have hD : ∃ c ∈ cfg.Disable_Syscalls, ¬ Known sys.Calls c := h.resolve_left hE
    have hEk : ∀ d ∈ cfg.Enable_Syscalls, Known sys.Calls d := by
      intro d hd
      by_contra hk
      exact hE ⟨d, hd, hk⟩
    have hd0 : cfg.Disable_Syscalls.length ≠ 0 := by
      intro h0
      rw [List.length_eq_zero] at h0
      obtain ⟨c, hc, _⟩ := hD
      rw [h0] at hc
      simp at hc
    by_cases he : cfg.Enable_Syscalls.length ≠ 0
    · obtain ⟨c, hc, hk, hres⟩ :=
        disableLoop_error sys.Calls cfg.Disable_Syscalls (∅ ∪ idsOf sys.Calls cfg.Enable_Syscalls) hD
      refine ⟨c, hk, Or.inr ⟨hc, hEk, ?_⟩⟩
      unfold resolveSyscalls
      rw [if_pos (Or.inl he)]
      simp only []
      rw [if_pos he]
      simp only [enableLoop_ok _ _ _ hEk, hres]
    · obtain ⟨c, hc, hk, hres⟩ :=
        disableLoop_error sys.Calls cfg.Disable_Syscalls (enableAll sys.Calls ∅) hD
      refine ⟨c, hk, Or.inr ⟨hc, hEk, ?_⟩⟩
      unfold resolveSyscalls
      rw [if_pos (Or.inr hd0)]
      simp only []
      rw [if_neg he]
      simp only [hres]

theorem parsed_envOf (cfg : Config) : Parsed (envOf cfg) cfg :=
  ⟨by simp [envOf], [], rfl, rfl⟩

theorem checkFields_cfgWith (count : Int) (enable disable : List String)
    (h1 : 1 ≤ count) (h2 : count ≤ 1000) : checkFields (cfgWith count enable disable) = .ok () := by
  rw [checkFields_ok_iff]
  simp [cfgWith, h1, h2]

/-! ## The claims on `parseConfig` -/

/-- C1: with `mmap` and `clock_gettime` in the name map, on every decoded config that passes
the field checks, has a non-empty enable-list or disable-list and lists only known names,
`parseConfig` returns a set, and that set holds the IDs of both name-map entries, whatever
the disable-list says. -/
theorem C1_parseConfig_keeps_mmap_and_clock_gettime (env : ManagerEnv) (sys : Sys)
    (cfg : Config) (mmap clock : Call)
    (hp : Parsed env cfg) (hv : checkFields cfg = .ok ())
    (hne : cfg.Enable_Syscalls ≠ [] ∨ cfg.Disable_Syscalls ≠ [])
    (hE : ∀ c ∈ cfg.Enable_Syscalls, Known sys.Calls c)
    (hD : ∀ c ∈ cfg.Disable_Syscalls, Known sys.Calls c)
    (hm : sys.CallMap "mmap" = some mmap) (hg : sys.CallMap "clock_gettime" = some clock) :
    ∃ S, parseConfig env sys = .ok (cfg, some S) ∧ mmap.ID ∈ S ∧ clock.ID ∈ S := by
  refine ⟨insert clock.ID (insert mmap.ID
    (baseSet sys cfg \ idsOf sys.Calls cfg.Disable_Syscalls)), ?_, ?_, ?_⟩
  · rw [parseConfig_of_parsed sys hp, hv]
    simp only [resolveSyscalls_known sys cfg hne hE hD, hm, hg]
  · simp
  · simp

/-- C1 at a config that disables both `mmap` and `clock_gettime`. -/
theorem C1_witness :
    ∃ S, parseConfig (envOf (cfgWith 1 [] ["mmap", "clock_gettime"])) plainSys
        = .ok (cfgWith 1 [] ["mmap", "clock_gettime"], some S) ∧ (0 : Int) ∈ S ∧ (1 : Int) ∈ S :=
  C1_parseConfig_keeps_mmap_and_clock_gettime (envOf _) plainSys
    (cfgWith 1 [] ["mmap", "clock_gettime"]) mmapCall clockCall
    (parsed_envOf _) (checkFields_cfgWith _ _ _ (by decide) (by decide))
    (Or.inr (by decide)) (by decide) (by decide) rfl rfl

/-- C2: with `mmap` and `clock_gettime` in the name map, on every decoded config that passes
the field checks, has a non-empty list and lists only known names, `parseConfig` returns
exactly (Base minus Disabled) plus the two IDs, where Base is every catalog ID when the
enable-list is empty and the IDs of the entries named by the enable-list otherwise. -/
theorem C2_parseConfig_set_exact (env : ManagerEnv) (sys : Sys)
    (cfg : Config) (mmap clock : Call)
    (hp : Parsed env cfg) (hv : checkFields cfg = .ok ())
    (hne : cfg.Enable_Syscalls ≠ [] ∨ cfg.Disable_Syscalls ≠ [])
    (hE : ∀ c ∈ cfg.Enable_Syscalls, Known sys.Calls c)
    (hD : ∀ c ∈ cfg.Disable_Syscalls, Known sys.Calls c)
    (hm : sys.CallMap "mmap" = some mmap) (hg : sys.CallMap "clock_gettime" = some clock) :
    parseConfig env sys = .ok (cfg, some
        (((if cfg.Enable_Syscalls = [] then allIDs sys.Calls
            else idsOf sys.Calls cfg.Enable_Syscalls)
          \ idsOf sys.Calls cfg.Disable_Syscalls) ∪ {mmap.ID, clock.ID}))
    ∧ (cfg.Enable_Syscalls = [] →
        parseConfig env sys = .ok (cfg, some
          ((allIDs sys.Calls \ idsOf sys.Calls cfg.Disable_Syscalls) ∪ {mmap.ID, clock.ID}))) := by
  have key : parseConfig env sys = .ok (cfg, some
        (((if cfg.Enable_Syscalls = [] then allIDs sys.Calls
            else idsOf sys.Calls cfg.Enable_Syscalls)
          \ idsOf sys.Calls cfg.Disable_Syscalls) ∪ {mmap.ID, clock.ID})) := by
    rw [parseConfig_of_parsed sys hp, hv]
    simp only [resolveSyscalls_known sys cfg hne hE hD, hm, hg, baseSet]
    congr 3
    ext i
    simp only [Finset.mem_insert, Finset.mem_union, Finset.mem_singleton]
    tauto
  refine ⟨key, fun he => ?_⟩
  rw [key, if_pos he]

/-- C2 at an empty enable-list and the disable-list `["open", "mmap"]`. -/
theorem C2_witness :
    parseConfig (envOf (cfgWith 1 [] ["open", "mmap"])) plainSys
      = .ok (cfgWith 1 [] ["open", "mmap"], some
          ((allIDs plainSys.Calls \ idsOf plainSys.Calls ["open", "mmap"]) ∪ {0, 1})) :=
  (C2_parseConfig_set_exact (envOf _) plainSys (cfgWith 1 [] ["open", "mmap"]) mmapCall clockCall
    (parsed_envOf _) (checkFields_cfgWith _ _ _ (by decide) (by decide))
    (Or.inr (by decide)) (by decide) (by decide) rfl rfl).2 rfl

/-- C3: on every catalog and every decoded config that passes the field checks, a name of
the enable-list or of the disable-list that is the call name of no catalog entry makes
`parseConfig` end with the unknown-syscall `fatalf` for such a name of that list; that
`fatalf` is only ever reached for a listed name that matches no entry; and the disable-list
is checked also when the enable-list is non-empty. -/
theorem C3_unknown_name_is_fatal (env : ManagerEnv) (sys : Sys) (cfg : Config)
    (hp : Parsed env cfg) (hv : checkFields cfg = .ok ()) :
    (((∃ c ∈ cfg.Enable_Syscalls, ¬ Known sys.Calls c) ∨
        (∃ c ∈ cfg.Disable_Syscalls, ¬ Known sys.Calls c)) →
      ∃ c, ¬ Known sys.Calls c ∧
        ((c ∈ cfg.Enable_Syscalls ∧ parseConfig env sys = .error (.unknownEnabled c)) ∨
         (c ∈ cfg.Disable_Syscalls ∧ parseConfig env sys = .error (.unknownDisabled c))))
    ∧ (∀ c, parseConfig env sys = .error (.unknownEnabled c) →
        c ∈ cfg.Enable_Syscalls ∧ ¬ Known sys.Calls c)
    ∧ (∀ c, parseConfig env sys = .error (.unknownDisabled c) →
        c ∈ cfg.Disable_Syscalls ∧ ¬ Known sys.Calls c)
    ∧ (cfg.Enable_Syscalls ≠ [] → (∀ c ∈ cfg.Enable_Syscalls, Known sys.Calls c) →
        (∃ c ∈ cfg.Disable_Syscalls, ¬ Known sys.Calls c) →
        ∃ c ∈ cfg.Disable_Syscalls, ¬ Known sys.Calls c ∧
          parseConfig env sys = .error (.unknownDisabled c)) := by
  have hpc : parseConfig env sys =
      match resolveSyscalls sys cfg with
      | .error e => .error e
      | .ok syscalls => .ok (cfg, syscalls) := by
    rw [parseConfig_of_parsed sys hp, hv]
  -- the result whenever some listed name is unknown
  have hbad : ((∃ c ∈ cfg.Enable_Syscalls, ¬ Known sys.Calls c) ∨
        (∃ c ∈ cfg.Disable_Syscalls, ¬ Known sys.Calls c)) →
      ∃ c, ¬ Known sys.Calls c ∧
        ((c ∈ cfg.Enable_Syscalls ∧ parseConfig env sys = .error (.unknownEnabled c)) ∨
         (c ∈ cfg.Disable_Syscalls ∧ (∀ d ∈ cfg.Enable_Syscalls, Known sys.Calls d) ∧
            parseConfig env sys = .error (.unknownDisabled c))) := by
    intro h
    obtain ⟨c, hk, hc⟩ := resolveSyscalls_unknown sys cfg h
    refine ⟨c, hk, ?_⟩
    rcases hc with ⟨hc, hres⟩ | ⟨hc, hall, hres⟩
    · exact Or.inl ⟨hc, by rw [hpc, hres]⟩
    · exact Or.inr ⟨hc, hall, by rw [hpc, hres]⟩
  -- the result whenever every listed name is known
  have hgood : (∀ c ∈ cfg.Enable_Syscalls, Known sys.Calls c) →
      (∀ c ∈ cfg.Disable_Syscalls, Known sys.Calls c) →
      parseConfig env sys = .error .nilDeref ∨ ∃ r, parseConfig env sys = .ok r := by
    intro hE hD
    by_cases hne : cfg.Enable_Syscalls ≠ [] ∨ cfg.Disable_Syscalls ≠ []
    · rw [hpc, resolveSyscalls_known sys cfg hne hE hD]
      cases sys.CallMap "mmap" with
      | none => exact Or.inl rfl
      | some m =>
        cases sys.CallMap "clock_gettime" with
        | none => exact Or.inl rfl
        | some g => exact Or.inr ⟨_, rfl⟩
    · have h1 : cfg.Enable_Syscalls = [] := by
        by_contra h; exact hne (Or.inl h)
      have h2 : cfg.Disable_Syscalls = [] := by
        by_contra h; exact hne (Or.inr h)
      rw [hpc, resolveSyscalls_empty sys cfg h1 h2]
      exact Or.inr ⟨_, rfl⟩
  have hcases : (∀ c ∈ cfg.Enable_Syscalls, Known sys.Calls c) ∧
        (∀ c ∈ cfg.Disable_Syscalls, Known sys.Calls c) ∨
      ((∃ c ∈ cfg.Enable_Syscalls, ¬ Known sys.Calls c) ∨
        (∃ c ∈ cfg.Disable_Syscalls, ¬ Known sys.Calls c)) := by
    by_cases h1 : ∃ c ∈ cfg.Enable_Syscalls, ¬ Known sys.Calls c
    · exact Or.inr (Or.inl h1)
    · by_cases h2 : ∃ c ∈ cfg.Disable_Syscalls, ¬ Known sys.Calls c
      · exact Or.inr (Or.inr h2)
      · refine Or.inl ⟨fun c hc => ?_, fun c hc => ?_⟩
        · by_contra hk; exact h1 ⟨c, hc, hk⟩
        · by_contra hk; exact h2 ⟨c, hc, hk⟩
  refine ⟨?_, ?_, ?_, ?_⟩
  · intro h
    obtain ⟨c, hk, hc⟩ := hbad h
    refine ⟨c, hk, ?_⟩
    rcases hc with hc | ⟨hc, _, hres⟩
    · exact Or.inl hc
    · exact Or.inr ⟨hc, hres⟩
  · intro c hres
    rcases hcases with ⟨hE, hD⟩ | h
    · rcases hgood hE hD with h | ⟨r, h⟩
      · rw [h] at hres; cases hres
      · rw [h] at hres; cases hres
    · obtain ⟨d, hk, hd⟩ := hbad h
      rcases hd with ⟨hd, h⟩ | ⟨hd, _, h⟩
      · rw [h] at hres
        cases hres
        exact ⟨hd, hk⟩
      · rw [h] at hres; cases hres
  · intro c hres
    rcases hcases with ⟨hE, hD⟩ | h
    · rcases hgood hE hD with h | ⟨r, h⟩
      · rw [h] at hres; cases hres
      · rw [h] at hres; cases hres
    · obtain ⟨d, hk, hd⟩ := hbad h
      rcases hd with ⟨hd, h⟩ | ⟨hd, _, h⟩
      · rw [h] at hres; cases hres
      · rw [h] at hres
        cases hres
        exact ⟨hd, hk⟩
  · intro _ hE hD
    obtain ⟨d, hk, hd⟩ := hbad (Or.inr hD)
    rcases hd with ⟨hd, _⟩ | ⟨hd, _, h⟩
    · exact absurd (hE d hd) hk
    · exact ⟨d, hd, hk, h⟩

/-- C3 at a non-empty, fully known enable-list and a disable-list with one unknown name. -/
theorem C3_witness :
    ∃ c ∈ (cfgWith 1 ["open"] ["mmap", "nosuchcall"]).Disable_Syscalls,
      ¬ Known plainSys.Calls c ∧
      parseConfig (envOf (cfgWith 1 ["open"] ["mmap", "nosuchcall"])) plainSys
        = .error (.unknownDisabled c) :=
  (C3_unknown_name_is_fatal (envOf _) plainSys (cfgWith 1 ["open"] ["mmap", "nosuchcall"])
    (parsed_envOf _) (checkFields_cfgWith _ _ _ (by decide) (by decide))).2.2.2
    (by decide) (by decide) (by decide)

/-- C5: on every decoded config the field checks of `parseConfig` fail when count is at
most 0 or above 1000 or one of the six strings is empty; with the six strings non-empty,
both syscall lists empty and 1 ≤ count ≤ 1000 `parseConfig` returns the config as decoded,
with no syscall set. -/
theorem C5_field_validation (env : ManagerEnv) (sys : Sys) (cfg : Config)
    (hp : Parsed env cfg) :
    ((cfg.Count ≤ 0 ∨ cfg.Count > 1000 ∨ cfg.Name = "" ∨ cfg.Http = "" ∨ cfg.Master = "" ∨
        cfg.Workdir = "" ∨ cfg.Vmlinux = "" ∨ cfg.Type_ = "") →
      ∃ e, checkFields cfg = .error e ∧ parseConfig env sys = .error e)
    ∧ (cfg.Name ≠ "" → cfg.Http ≠ "" → cfg.Master ≠ "" → cfg.Workdir ≠ "" →
        cfg.Vmlinux ≠ "" → cfg.Type_ ≠ "" →
        cfg.Enable_Syscalls = [] → cfg.Disable_Syscalls = [] →
        1 ≤ cfg.Count → cfg.Count ≤ 1000 →
        checkFields cfg = .ok () ∧ parseConfig env sys = .ok (cfg, none)) := by
  constructor
  · intro h
    obtain ⟨e, he⟩ := checkFields_error_of cfg h
    exact ⟨e, he, by rw [parseConfig_of_parsed sys hp, he]⟩
  · intro h1 h2 h3 h4 h5 h6 hE hD h7 h8
    have hv : checkFields cfg = .ok () :=
      (checkFields_ok_iff cfg).mpr ⟨h1, h2, h3, h4, h5, h6, h7, h8⟩
    refine ⟨hv, ?_⟩
    rw [parseConfig_of_parsed sys hp, hv]
    simp only [resolveSyscalls_empty sys cfg hE hD]

/-- C5 at the boundaries: counts 1 and 1000 pass, counts 0 and 1001 fail. -/
theorem C5_witness :
    parseConfig (envOf (cfgWith 1 [] [])) plainSys = .ok (cfgWith 1 [] [], none)
    ∧ parseConfig (envOf (cfgWith 1000 [] [])) plainSys = .ok (cfgWith 1000 [] [], none)
    ∧ (∃ e, checkFields (cfgWith 0 [] []) = .error e ∧
        parseConfig (envOf (cfgWith 0 [] [])) plainSys = .error e)
    ∧ (∃ e, checkFields (cfgWith 1001 [] []) = .error e ∧
        parseConfig (envOf (cfgWith 1001 [] [])) plainSys = .error e) :=
  ⟨((C5_field_validation (envOf _) plainSys (cfgWith 1 [] []) (parsed_envOf _)).2
      (by decide) (by decide) (by decide) (by decide) (by decide) (by decide) rfl rfl
      (by decide) (by decide)).2,
   ((C5_field_validation (envOf _) plainSys (cfgWith 1000 [] []) (parsed_envOf _)).2
      (by decide) (by decide) (by decide) (by decide) (by decide) (by decide) rfl rfl
      (by decide) (by decide)).2,
   (C5_field_validation (envOf _) plainSys (cfgWith 0 [] []) (parsed_envOf _)).1
      (Or.inl (by decide)),
   (C5_field_validation (envOf _) plainSys (cfgWith 1001 [] []) (parsed_envOf _)).1
      (Or.inr (Or.inl (by decide)))⟩

/-- C4, refuted as stated: in a catalog that contains `mmap` and `clock_gettime` and a
second entry with call name `mmap`, the scenario config resolves to three IDs, not to
`{ID(mmap), ID(clock_gettime)}`. -/
theorem C4_counterexample :
    variantSys.CallMap "mmap" = some mmapCall
    ∧ variantSys.CallMap "clock_gettime" = some clockCall
    ∧ scenarioCfg.Enable_Syscalls = ["mmap"] ∧ scenarioCfg.Disable_Syscalls = []
    ∧ parseConfig (envOf scenarioCfg) variantSys = .ok (scenarioCfg, some {0, 1, 3})
    ∧ parseConfig (envOf scenarioCfg) variantSys
        ≠ .ok (scenarioCfg, some {mmapCall.ID, clockCall.ID}) := by
  have hres : parseConfig (envOf scenarioCfg) variantSys = .ok (scenarioCfg, some {0, 1, 3}) := by
    simp [parseConfig, envOf, checkFields, scenarioCfg, cfgWith, resolveSyscalls, enableLoop,
      enableName, disableLoop, variantSys, mmapCall, clockCall, openCall, mmapVariant]
    decide
  refine ⟨rfl, rfl, rfl, rfl, hres, ?_⟩
  rw [hres]
  intro h
  have h2 : ({0, 1, 3} : Finset Int) = {mmapCall.ID, clockCall.ID} := by
    simpa using h
  revert h2
  simp [mmapCall, clockCall]
  decide

/-- C4, amended: with `mmap` and `clock_gettime` in the name map and at least one catalog
entry of call name `mmap`, the config with `enable_syscalls = ["mmap"]` and an empty
disable-list resolves to the IDs of all entries of call name `mmap` together with the two
name-map IDs; that is `{ID(mmap), ID(clock_gettime)}` exactly when every entry of call name
`mmap` has one of these two IDs. -/
theorem C4_enable_mmap_resolves (env : ManagerEnv) (sys : Sys) (cfg : Config)
    (mmap clock : Call)
    (hp : Parsed env cfg) (hv : checkFields cfg = .ok ())
    (he : cfg.Enable_Syscalls = ["mmap"]) (hd : cfg.Disable_Syscalls = [])
    (hk : Known sys.Calls "mmap")
    (hm : sys.CallMap "mmap" = some mmap) (hg : sys.CallMap "clock_gettime" = some clock) :
    parseConfig env sys = .ok (cfg, some (idsOf sys.Calls ["mmap"] ∪ {mmap.ID, clock.ID}))
    ∧ (parseConfig env sys = .ok (cfg, some {mmap.ID, clock.ID}) ↔
        ∀ call ∈ sys.Calls, call.CallName = "mmap" → call.ID = mmap.ID ∨ call.ID = clock.ID) := by
  have hE : ∀ c ∈ cfg.Enable_Syscalls, Known sys.Calls c := by
    intro c hc
    rw [he, List.mem_singleton] at hc
    rw [hc]; exact hk
  have hD : ∀ c ∈ cfg.Disable_Syscalls, Known sys.Calls c := by
    intro c hc
    rw [hd] at hc
    simp at hc
  have hne : cfg.Enable_Syscalls ≠ [] ∨ cfg.Disable_Syscalls ≠ [] := by
    left; rw [he]; simp
  have key : parseConfig env sys
      = .ok (cfg, some (idsOf sys.Calls ["mmap"] ∪ {mmap.ID, clock.ID})) := by
    rw [parseConfig_of_parsed sys hp, hv]
    simp only [resolveSyscalls_known sys cfg hne hE hD, hm, hg, baseSet, he, hd, idsOf_nil]
    congr 3
    ext i
    simp only [Finset.mem_insert, Finset.mem_union, Finset.mem_singleton, Finset.mem_sdiff,
      Finset.not_mem_empty, not_false_eq_true, and_true, if_neg (List.cons_ne_nil _ _)]
    tauto
  refine ⟨key, ?_⟩
  rw [key]
  constructor
  · intro h call hc hn
    have hset : idsOf sys.Calls ["mmap"] ∪ {mmap.ID, clock.ID} = {mmap.ID, clock.ID} := by
      simpa using h
    have hi : call.ID ∈ idsOf sys.Calls ["mmap"] ∪ {mmap.ID, clock.ID} :=
      Finset.mem_union_left _ (mem_idsOf.mpr ⟨call, hc, by simp [hn], rfl⟩)
    rw [hset] at hi
    simpa using hi
  · intro h
    congr 3
    ext i
    simp only [Finset.mem_insert, Finset.mem_union, Finset.mem_singleton, mem_idsOf,
      List.mem_singleton]
    constructor
    · rintro (⟨call, hc, hn, rfl⟩ | hi)
      · exact h call hc hn
      · exact hi
    · exact Or.inr

/-- C4 amended, at the scenario config: three IDs with the second `mmap` entry present, and
exactly the two IDs in the table with one entry per call name. -/
theorem C4_witness :
    parseConfig (envOf scenarioCfg) variantSys
        = .ok (scenarioCfg, some (idsOf variantSys.Calls ["mmap"] ∪ {0, 1}))
    ∧ parseConfig (envOf scenarioCfg) plainSys = .ok (scenarioCfg, some {0, 1}) :=
  ⟨(C4_enable_mmap_resolves (envOf _) variantSys scenarioCfg mmapCall clockCall
      (parsed_envOf _) (checkFields_cfgWith _ _ _ (by decide) (by decide)) rfl rfl
      (by decide) rfl rfl).1,
   (C4_enable_mmap_resolves (envOf _) plainSys scenarioCfg mmapCall clockCall
      (parsed_envOf _) (checkFields_cfgWith _ _ _ (by decide) (by decide)) rfl rfl
      (by decide) rfl rfl).2.mpr (by decide)⟩

/-! ## The claims on `ctor` -/

/-- The result of `ctor` once the bytes decode and both paths exist. -/
theorem ctor_of_present (env : LocalEnv) (workdir : String) (syscalls : Option (Finset Int))
    (port index : Int) (paramsData : Bytes) (p : params)
    (hdec : env.Unmarshal paramsData = .ok p)
    (hf : env.Stat p.Fuzzer = none) (he : env.Stat p.Executor = none) :
    (ctor env workdir syscalls port index paramsData).1 =
      if p.Parallel < 0 ∨ p.Parallel > 100 then .error (.badParallel p.Parallel)
      else .ok { Fuzzer := p.Fuzzer, Executor := p.Executor,
                 Parallel := if p.Parallel = 0 then 1 else p.Parallel,
                 workdir := workdir, syscalls := syscalls, id := index, mgrPort := port } := by
  unfold ctor
  simp only [hdec, hf, he]
  by_cases h0 : p.Parallel = 0
  · simp [h0]
  · by_cases hr : p.Parallel < 0 ∨ p.Parallel > 100
    · have hr2 : p.Parallel ≤ 0 ∨ p.Parallel > 100 := by omega
      simp [h0, hr, hr2]
    · have hr2 : ¬ (p.Parallel ≤ 0 ∨ p.Parallel > 100) := by omega
      simp only [h0, if_false, hr, hr2]

/-- C6: when the parameter bytes decode to `p` and both paths exist, `ctor` succeeds iff
0 ≤ p.Parallel ≤ 100; the worker it returns has parallelism 1 for 0 and `p.Parallel`
otherwise, hence within 1..100; for a negative value or one above 100 it returns the
bad-parallel error and no worker. -/
theorem C6_ctor_parallel_range (env : LocalEnv) (workdir : String)
    (syscalls : Option (Finset Int)) (port index : Int) (paramsData : Bytes) (p : params)
    (hdec : env.Unmarshal paramsData = .ok p)
    (hf : env.Stat p.Fuzzer = none) (he : env.Stat p.Executor = none) :
    ((∃ loc, (ctor env workdir syscalls port index paramsData).1 = .ok loc)
        ↔ 0 ≤ p.Parallel ∧ p.Parallel ≤ 100)
    ∧ (∀ loc, (ctor env workdir syscalls port index paramsData).1 = .ok loc →
        loc.Parallel = (if p.Parallel = 0 then 1 else p.Parallel)
        ∧ 1 ≤ loc.Parallel ∧ loc.Parallel ≤ 100)
    ∧ (p.Parallel < 0 ∨ p.Parallel > 100 →
        (ctor env workdir syscalls port index paramsData).1 = .error (.badParallel p.Parallel)) := by
  have key := ctor_of_present env workdir syscalls port index paramsData p hdec hf he
  refine ⟨⟨?_, ?_⟩, ?_, ?_⟩
  · rintro ⟨loc, hloc⟩
    by_contra hr
    have hr2 : p.Parallel < 0 ∨ p.Parallel > 100 := by omega
    rw [key, if_pos hr2] at hloc
    cases hloc
  · intro hr
    have hr2 : ¬ (p.Parallel < 0 ∨ p.Parallel > 100) := by omega
    rw [key, if_neg hr2]
    exact ⟨_, rfl⟩
  · intro loc hloc
    by_cases hr2 : p.Parallel < 0 ∨ p.Parallel > 100
    · rw [key, if_pos hr2] at hloc
      cases hloc
    · rw [key, if_neg hr2] at hloc
      cases hloc
      refine ⟨rfl, ?_, ?_⟩
      · show 1 ≤ (if p.Parallel = 0 then 1 else p.Parallel)
        split_ifs with h0 <;> omega
      · show (if p.Parallel = 0 then 1 else p.Parallel) ≤ 100
        split_ifs with h0 <;> omega
  · intro hr
    rw [key, if_pos hr]

/-- C6 at `Parallel = 0` (effective parallelism 1) and at `Parallel = 150` (error). -/
theorem C6_witness :
    (∀ loc, (ctor (localEnvOf ⟨fuzzerPath, executorPath, 0⟩ [fuzzerPath, executorPath])
        "/tmp/w" none 1234 0 []).1 = .ok loc → loc.Parallel = 1)
    ∧ (ctor (localEnvOf ⟨fuzzerPath, executorPath, 150⟩ [fuzzerPath, executorPath])
        "/tmp/w" none 1234 0 []).1 = .error (.badParallel 150) :=
  ⟨fun loc h =>
    ((C6_ctor_parallel_range (localEnvOf ⟨fuzzerPath, executorPath, 0⟩ [fuzzerPath, executorPath])
      "/tmp/w" none 1234 0 [] ⟨fuzzerPath, executorPath, 0⟩ rfl (by decide) (by decide)).2.1
        loc h).1,
   (C6_ctor_parallel_range (localEnvOf ⟨fuzzerPath, executorPath, 150⟩ [fuzzerPath, executorPath])
      "/tmp/w" none 1234 0 [] ⟨fuzzerPath, executorPath, 150⟩ rfl (by decide) (by decide)).2.2
        (Or.inr (by decide))⟩

/-- C7: when the parameter bytes decode to `p` and `os.Stat` fails on the fuzzer path or on
the executor path, `ctor` returns the matching not-found error and no worker, for every
value of `Parallel`, and has performed no effect: no directory creation, no write to the
exception-trace file, no change of the core limit, no process start. -/
theorem C7_ctor_missing_binary (env : LocalEnv) (workdir : String)
    (syscalls : Option (Finset Int)) (port index : Int) (paramsData : Bytes) (p : params)
    (hdec : env.Unmarshal paramsData = .ok p)
    (hmiss : env.Stat p.Fuzzer ≠ none ∨ env.Stat p.Executor ≠ none) :
    ((∃ err, ctor env workdir syscalls port index paramsData
          = (.error (.fuzzerMissing p.Fuzzer err), []))
      ∨ (∃ err, ctor env workdir syscalls port index paramsData
          = (.error (.executorMissing p.Executor err), [])))
    ∧ (ctor env workdir syscalls port index paramsData).2 = []
    ∧ ∀ loc, (ctor env workdir syscalls port index paramsData).1 ≠ .ok loc := by
  have main : (∃ err, ctor env workdir syscalls port index paramsData
          = (.error (.fuzzerMissing p.Fuzzer err), []))
      ∨ (∃ err, ctor env workdir syscalls port index paramsData
          = (.error (.executorMissing p.Executor err), [])) := by
    unfold ctor
    simp only [hdec]
    cases hF : env.Stat p.Fuzzer with
    | some err => exact Or.inl ⟨err, rfl⟩
    | none =>
      cases hE : env.Stat p.Executor with
      | some err => exact Or.inr ⟨err, rfl⟩
      | none =>
        rcases hmiss with h | h
        · exact absurd hF h
        · exact absurd hE h
  refine ⟨main, ?_, ?_⟩
  · rcases main with ⟨err, h⟩ | ⟨err, h⟩ <;> rw [h]
  · intro loc
    rcases main with ⟨err, h⟩ | ⟨err, h⟩ <;> rw [h] <;> simp

/-- C7 with the executor missing and an in-range `Parallel`. -/
theorem C7_witness :
    (ctor (localEnvOf ⟨fuzzerPath, executorPath, 4⟩ [fuzzerPath]) "/tmp/w" none 1234 0 []).2 = []
    ∧ ∀ loc, (ctor (localEnvOf ⟨fuzzerPath, executorPath, 4⟩ [fuzzerPath])
        "/tmp/w" none 1234 0 []).1 ≠ .ok loc :=
  (C7_ctor_missing_binary (localEnvOf ⟨fuzzerPath, executorPath, 4⟩ [fuzzerPath])
    "/tmp/w" none 1234 0 [] ⟨fuzzerPath, executorPath, 4⟩ rfl (Or.inr (by decide))).2

/-! ## Lemmas on decimal strings and on the buffer of `Run` -/

theorem digitChar_ne_comma : ∀ n, n < 10 → Nat.digitChar n ≠ ',' := by
  decide

theorem toDigitsCore_no_comma (fuel n : Nat) (ds : List Char) (h : ∀ c ∈ ds, c ≠ ',') :
    ∀ c ∈ Nat.toDigitsCore 10 fuel n ds, c ≠ ',' := by
  induction fuel generalizing n ds with
  | zero => simpa [Nat.toDigitsCore] using h
  | succ fuel ih =>
    have hd : ∀ c ∈ Nat.digitChar (n % 10) :: ds, c ≠ ',' := by
      intro c hc
      rcases List.mem_cons.mp hc with rfl | hc
      · exact digitChar_ne_comma _ (Nat.mod_lt _ (by decide))
      · exact h c hc
    unfold Nat.toDigitsCore
    simp only
    split_ifs with h0
    · exact hd
    · exact ih _ _ hd

theorem toDigitsCore_ne_nil (fuel n : Nat) (ds : List Char) (h : ds ≠ []) :
    Nat.toDigitsCore 10 fuel n ds ≠ [] := by
  induction fuel generalizing n ds with
  | zero => simpa [Nat.toDigitsCore] using h
  | succ fuel ih =>
    unfold Nat.toDigitsCore
    simp only
    split_ifs with h0
    · simp
    · exact ih _ _ (by simp)

theorem toDigits_ne_nil (n : Nat) : Nat.toDigits 10 n ≠ [] := by
  unfold Nat.toDigits Nat.toDigitsCore
  simp only
  split_ifs with h0
  · simp
  · exact toDigitsCore_ne_nil _ _ _ (by simp)

theorem natRepr_data (n : Nat) : (toString n).data = Nat.toDigits 10 n := rfl

theorem int_toString_data (i : Int) :
    (toString i).data ≠ [] ∧ ∀ c ∈ (toString i).data, c ≠ ',' := by
  cases i with
  | ofNat m =>
    show (toString m).data ≠ [] ∧ ∀ c ∈ (toString m).data, c ≠ ','
    rw [natRepr_data]
    exact ⟨toDigits_ne_nil m, toDigitsCore_no_comma _ _ _ (by simp)⟩
  | negSucc m =>
    show ("-" ++ toString (m + 1)).data ≠ [] ∧ ∀ c ∈ ("-" ++ toString (m + 1)).data, c ≠ ','
    rw [String.data_append, natRepr_data]
    refine ⟨by simp, ?_⟩
    intro c hc
    rcases List.mem_append.mp hc with hc | hc
    · simp at hc
      rw [hc]; decide
    · exact toDigitsCore_no_comma _ _ _ (by simp) c hc

theorem intercalate_go_eq (sep acc : String) (as : List String) :
    String.intercalate.go acc sep as = as.foldl (fun r a => r ++ sep ++ a) acc := by
  induction as generalizing acc with
  | nil => rfl
  | cons a rest ih => simp [String.intercalate.go, ih]

theorem foldl_comma_front (as : List String) (a : String) :
    as.foldl (fun r x => r ++ "," ++ x) ("," ++ a) = "," ++ as.foldl (fun r x => r ++ "," ++ x) a := by
  induction as generalizing a with
  | nil => rfl
  | cons x rest ih =>
    simp only [List.foldl_cons]
    rw [← ih, String.append_assoc, String.append_assoc, String.append_assoc]

theorem drop_one_comma (t : String) : ("," ++ t).drop 1 = t := by
  rw [String.drop_eq]
  simp

theorem comma_append_ne_empty (t : String) : "," ++ t ≠ "" := by
  intro h
  have := congrArg String.data h
  simp at this

theorem sprint_nonempty_no_comma (c : Int) : Sprint c ≠ "" ∧ ',' ∉ (Sprint c).data := by
  obtain ⟨h1, h2⟩ := int_toString_data c
  refine ⟨?_, fun hc => h2 _ hc rfl⟩
  intro h
  apply h1
  show (Sprint c).data = []
  rw [h]

theorem callsBuf_cons (c : Int) (rest : List Int) :
    callsBuf (c :: rest) = "," ++ ",".intercalate ((c :: rest).map Sprint) := by
  have h1 : ∀ (l : List Int) (a : String),
      l.foldl (fun buf c => buf ++ "," ++ Sprint c) a
        = (l.map Sprint).foldl (fun r x => r ++ "," ++ x) a := by
    intro l
    induction l with
    | nil => intro a; rfl
    | cons x xs ih => intro a; simp only [List.foldl_cons, List.map_cons, ih]
  unfold callsBuf
  rw [List.foldl_cons, h1, List.map_cons, String.intercalate, intercalate_go_eq]
  have h2 : ("" : String) ++ "," ++ Sprint c = "," ++ Sprint c := by
    rw [String.empty_append]
  rw [h2, foldl_comma_front]

theorem rangeOrder_ne_nil {m : Option (Finset Int)} {order : List Int}
    (h : RangeOrder m order) (hlen : mapLen m ≠ 0) : order ≠ [] := by
  cases m with
  | none => exact absurd rfl hlen
  | some S =>
    have hS : S.Nonempty := Finset.card_pos.mp (Nat.pos_of_ne_zero hlen)
    obtain ⟨c, hc⟩ := hS
    have : c ∈ order := (h.2 c).mpr hc
    intro h0
    rw [h0] at this
    simp at this

theorem mapLen_eq_zero_iff (m : Option (Finset Int)) : mapLen m = 0 ↔ mapKeys m = ∅ := by
  cases m with
  | none => simp [mapLen, mapKeys]
  | some S => simp [mapLen, mapKeys]

/-- The argument vector of one iteration, for any order `range` may produce. -/
theorem cmdArgs_eq (loc : Local) (order : List Int) (h : RangeOrder loc.syscalls order) :
    cmdArgs loc order = some
      ([loc.Fuzzer, "-name", "local-" ++ Sprint loc.id, "-saveprog", "-executor", loc.Executor,
        "-manager", "localhost:" ++ Sprint loc.mgrPort, "-parallel", Sprint loc.Parallel]
        ++ (if mapKeys loc.syscalls = ∅ then []
            else ["-calls=" ++ ",".intercalate (order.map Sprint)])) := by
  unfold cmdArgs
  by_cases hlen : mapLen loc.syscalls = 0
  · have hk : mapKeys loc.syscalls = ∅ := (mapLen_eq_zero_iff _).mp hlen
    simp [hlen, hk]
  · have hk : ¬ mapKeys loc.syscalls = ∅ := fun hk => hlen ((mapLen_eq_zero_iff _).mpr hk)
    have hne := rangeOrder_ne_nil h hlen
    obtain ⟨c, rest, rfl⟩ := List.exists_cons_of_ne_nil hne
    have hs : sliceFrom1 (callsBuf (c :: rest)) = some (",".intercalate ((c :: rest).map Sprint)) := by
      rw [callsBuf_cons]
      unfold sliceFrom1
      rw [if_neg (comma_append_ne_empty _), drop_one_comma]
    simp only [ne_eq, hlen, not_false_eq_true, if_true, hs, hk, if_false]

/-! ## The claims on the argument vector of `Run` -/

/-- C8: for every worker and every order in which `range` may yield the keys of its
syscall map, the argument vector of an iteration of `Run` is the ten fixed arguments,
followed, exactly when the map has a key, by the single argument `-calls=` plus the
decimal IDs joined by commas; the IDs listed are the keys, each once, and no decimal ID is
empty or contains a comma, so commas occur only between IDs. -/
theorem C8_run_argument_vector (loc : Local) (order : List Int)
    (h : RangeOrder loc.syscalls order) :
    cmdArgs loc order = some
      ([loc.Fuzzer, "-name", "local-" ++ Sprint loc.id, "-saveprog", "-executor", loc.Executor,
        "-manager", "localhost:" ++ Sprint loc.mgrPort, "-parallel", Sprint loc.Parallel]
        ++ (if mapKeys loc.syscalls = ∅ then []
            else ["-calls=" ++ ",".intercalate (order.map Sprint)]))
    ∧ order.Nodup ∧ order.toFinset = mapKeys loc.syscalls
    ∧ (order.map Sprint).length = (mapKeys loc.syscalls).card
    ∧ ∀ c ∈ order, Sprint c ≠ "" ∧ ',' ∉ (Sprint c).data := by
  have hfin : order.toFinset = mapKeys loc.syscalls :=
    Finset.ext fun c => by rw [List.mem_toFinset, h.2]
  refine ⟨cmdArgs_eq loc order h, h.1, hfin, ?_, fun c _ => sprint_nonempty_no_comma c⟩
  rw [List.length_map, ← hfin, List.toFinset_card_of_nodup h.1]

/-- C8 at a worker with the set `{0, 1}`, the keys yielded in the order 1, 0. -/
theorem C8_witness :
    cmdArgs workerWithSet [1, 0] = some
      ["/bin/syz-fuzzer", "-name", "local-0", "-saveprog", "-executor", "/bin/syz-executor",
        "-manager", "localhost:1234", "-parallel", "2", "-calls=1,0"] :=
  (C8_run_argument_vector workerWithSet [1, 0] (by decide)).1.trans (by decide)

/-! ## From `parseConfig` to the `-calls=` argument -/

theorem parseConfig_ok_inv {env : ManagerEnv} {sys : Sys} {cfg : Config}
    {s : Option (Finset Int)} (h : parseConfig env sys = .ok (cfg, s)) :
    Parsed env cfg ∧ checkFields cfg = .ok () ∧ resolveSyscalls sys cfg = .ok s := by
  unfold parseConfig at h
  split_ifs at h with hflag
  cases hread : env.ReadFile env.flagConfig with
  | error err => rw [hread] at h; cases h
  | ok data =>
    rw [hread] at h
    simp only at h
    cases hdec : env.Unmarshal data with
    | error err => rw [hdec] at h; cases h
    | ok cfg0 =>
      rw [hdec] at h
      simp only at h
      cases hv : checkFields cfg0 with
      | error e => rw [hv] at h; cases h
      | ok u =>
        rw [hv] at h
        simp only at h
        cases hr : resolveSyscalls sys cfg0 with
        | error e => rw [hr] at h; cases h
        | ok s0 =>
          rw [hr] at h
          simp only [Except.ok.injEq, Prod.mk.injEq] at h
          obtain ⟨rfl, rfl⟩ := h
          exact ⟨⟨hflag, data, hread, hdec⟩, hv, hr⟩

theorem resolveSyscalls_ok_shape (sys : Sys) (cfg : Config) (s : Option (Finset Int))
    (h : resolveSyscalls sys cfg = .ok s) :
    (cfg.Enable_Syscalls = [] ∧ cfg.Disable_Syscalls = [] → s = none)
    ∧ (¬ (cfg.Enable_Syscalls = [] ∧ cfg.Disable_Syscalls = []) →
        ∃ S, s = some S ∧ S.Nonempty) := by
  constructor
  · rintro ⟨h1, h2⟩
    rw [resolveSyscalls_empty sys cfg h1 h2] at h
    cases h
    rfl
  · intro hne
    have hne2 : cfg.Enable_Syscalls ≠ [] ∨ cfg.Disable_Syscalls ≠ [] := by
      by_contra hc
      push_neg at hc
      exact hne hc
    by_cases hbad : (∃ c ∈ cfg.Enable_Syscalls, ¬ Known sys.Calls c) ∨
        (∃ c ∈ cfg.Disable_Syscalls, ¬ Known sys.Calls c)
    · obtain ⟨c, _, hc⟩ := resolveSyscalls_unknown sys cfg hbad
      rcases hc with ⟨_, hres⟩ | ⟨_, _, hres⟩ <;> rw [hres] at h <;> cases h
    · have hE : ∀ c ∈ cfg.Enable_Syscalls, Known sys.Calls c := by
        intro c hc
        by_contra hk
        exact hbad (Or.inl ⟨c, hc, hk⟩)
      have hD : ∀ c ∈ cfg.Disable_Syscalls, Known sys.Calls c := by
        intro c hc
        by_contra hk
        exact hbad (Or.inr ⟨c, hc, hk⟩)
      rw [resolveSyscalls_known sys cfg hne2 hE hD] at h
      cases hm : sys.CallMap "mmap" with
      | none => rw [hm] at h; cases h
      | some m =>
        rw [hm] at h
        simp only at h
        cases hg : sys.CallMap "clock_gettime" with
        | none => rw [hg] at h; cases h
        | some g =>
          rw [hg] at h
          simp only [Except.ok.injEq] at h
          exact ⟨_, h.symm, Finset.insert_nonempty _ _⟩

theorem ctor_ok_fields (env : LocalEnv) (workdir : String) (syscalls : Option (Finset Int))
    (port index : Int) (paramsData : Bytes) (loc : Local)
    (h : (ctor env workdir syscalls port index paramsData).1 = .ok loc) :
    loc.workdir = workdir ∧ loc.syscalls = syscalls ∧ loc.id = index ∧ loc.mgrPort = port := by
  unfold ctor at h
  cases hdec : env.Unmarshal paramsData with
  | error err => rw [hdec] at h; cases h
  | ok p =>
    rw [hdec] at h
    simp only at h
    cases hF : env.Stat p.Fuzzer with
    | some err => rw [hF] at h; cases h
    | none =>
      rw [hF] at h
      simp only at h
      cases hE : env.Stat p.Executor with
      | some err => rw [hE] at h; cases h
      | none =>
        rw [hE] at h
        simp only at h
        split_ifs at h <;> cases h <;> exact ⟨rfl, rfl, rfl, rfl⟩

/-- C10: whenever `parseConfig` succeeds, the set it returns is nil when both syscall lists
are empty and is a non-empty set otherwise, so the test `len(loc.syscalls) != 0` of `Run`
holds exactly when a set is present; a local worker built by `ctor` with that set gets the
ten fixed arguments when both lists are empty and one further `-calls=` argument
otherwise. -/
theorem C10_calls_argument_iff_lists_nonempty (env : ManagerEnv) (sys : Sys) (cfg : Config)
    (s : Option (Finset Int)) (hres : parseConfig env sys = .ok (cfg, s)) :
    (cfg.Enable_Syscalls = [] ∧ cfg.Disable_Syscalls = [] → s = none)
    ∧ (¬ (cfg.Enable_Syscalls = [] ∧ cfg.Disable_Syscalls = []) → ∃ S, s = some S ∧ S.Nonempty)
    ∧ (mapLen s ≠ 0 ↔ s ≠ none)
    ∧ (mapLen s ≠ 0 ↔ ¬ (cfg.Enable_Syscalls = [] ∧ cfg.Disable_Syscalls = []))
    ∧ ∀ (lenv : LocalEnv) (workdir : String) (port index : Int) (paramsData : Bytes)
        (loc : Local) (order : List Int),
        (ctor lenv workdir s port index paramsData).1 = .ok loc → RangeOrder s order →
        cmdArgs loc order = some
          ([loc.Fuzzer, "-name", "local-" ++ Sprint loc.id, "-saveprog", "-executor",
            loc.Executor, "-manager", "localhost:" ++ Sprint loc.mgrPort, "-parallel",
            Sprint loc.Parallel]
            ++ (if cfg.Enable_Syscalls = [] ∧ cfg.Disable_Syscalls = [] then []
                else ["-calls=" ++ ",".intercalate (order.map Sprint)])) := by
  obtain ⟨_, _, hr⟩ := parseConfig_ok_inv hres
  obtain ⟨hnone, hsome⟩ := resolveSyscalls_ok_shape sys cfg s hr
  have hlen : mapLen s ≠ 0 ↔ ¬ (cfg.Enable_Syscalls = [] ∧ cfg.Disable_Syscalls = []) := by
    constructor
    · intro h hboth
      rw [hnone hboth] at h
      exact h rfl
    · intro h
      obtain ⟨S, rfl, hS⟩ := hsome h
      exact Nat.pos_iff_ne_zero.mp (Finset.card_pos.mpr hS)
  refine ⟨hnone, hsome, ?_, hlen, ?_⟩
  · constructor
    · intro h hs
      rw [hs] at h
      exact h rfl
    · intro h
      by_cases hboth : cfg.Enable_Syscalls = [] ∧ cfg.Disable_Syscalls = []
      · exact absurd (hnone hboth) h
      · exact hlen.mpr hboth
  · intro lenv workdir port index paramsData loc order hctor horder
    obtain ⟨_, hsys, _, _⟩ := ctor_ok_fields lenv workdir s port index paramsData loc hctor
    rw [← hsys] at horder
    rw [cmdArgs_eq loc order horder, hsys]
    by_cases hboth : cfg.Enable_Syscalls = [] ∧ cfg.Disable_Syscalls = []
    · have hk : mapKeys s = ∅ := by rw [hnone hboth]; rfl
      rw [if_pos hk, if_pos hboth]
    · have hk : ¬ mapKeys s = ∅ := fun hk =>
        hlen.mpr hboth ((mapLen_eq_zero_iff s).mpr hk)
      rw [if_neg hk, if_neg hboth]

theorem parseConfig_scenario_plain :
    parseConfig (envOf scenarioCfg) plainSys = .ok (scenarioCfg, some {0, 1}) := by
  simp [parseConfig, envOf, checkFields, scenarioCfg, cfgWith, resolveSyscalls, enableLoop,
    enableName, disableLoop, plainSys, mmapCall, clockCall, openCall]
  decide

/-- C10 at the scenario config: the set is present and non-empty, and the length test of
`Run` holds. -/
theorem C10_witness :
    (∃ S, some ({0, 1} : Finset Int) = some S ∧ S.Nonempty)
    ∧ (mapLen (some ({0, 1} : Finset Int)) ≠ 0 ↔
        ¬ (scenarioCfg.Enable_Syscalls = [] ∧ scenarioCfg.Disable_Syscalls = [])) :=
  ⟨(C10_calls_argument_iff_lists_nonempty (envOf scenarioCfg) plainSys scenarioCfg
      (some {0, 1}) parseConfig_scenario_plain).2.1 (by decide),
   (C10_calls_argument_iff_lists_nonempty (envOf scenarioCfg) plainSys scenarioCfg
      (some {0, 1}) parseConfig_scenario_plain).2.2.2.1⟩

/-! ## Lemmas on the loop of `Run` -/

/-- One pass through the loop body, for an order `range` may produce: a launch attempt
followed by one of the two tails, and never a panic. -/
theorem iteration_shape (loc : Local) (l : Launch) (h : RangeOrder loc.syscalls l.order) :
    ∃ args, cmdArgs loc l.order = some args ∧
      ((∃ err, l.outcome = .startFailed err ∧ iteration loc l =
          ([Op.Start args loc.workdir (.failed err),
            Op.Printf ("failed to start fuzzer binary: " ++ err),
            Op.Sleep (10 * Second)], .continue_))
       ∨ (∃ pid waitErr w, l.outcome = .exited pid waitErr w ∧ iteration loc l =
          ([Op.Start args loc.workdir (.started pid), Op.GoWatchdog pid Hour,
            Op.Wait pid waitErr, Op.CloseDone,
            Op.Printf ("fuzzer binary exited: " ++ fmtErr waitErr), Op.Sleep (10 * Second)],
            .next))) := by
  refine ⟨_, cmdArgs_eq loc l.order h, ?_⟩
  unfold iteration
  rw [cmdArgs_eq loc l.order h]
  cases ho : l.outcome with
  | startFailed err => exact Or.inl ⟨err, rfl, rfl⟩
  | exited pid waitErr w => exact Or.inr ⟨pid, waitErr, w, rfl, rfl⟩

/-- One pass starts with the launch attempt, recorded with the result the outcome gives,
and makes no second attempt. -/
theorem iteration_head (loc : Local) (l : Launch) (h : RangeOrder loc.syscalls l.order) :
    ∃ args tail, cmdArgs loc l.order = some args ∧
      (iteration loc l).1 = Op.Start args loc.workdir (startResult l.outcome) :: tail ∧
      ∀ x ∈ tail, isStart x = false := by
  obtain ⟨args, hargs, hit⟩ := iteration_shape loc l h
  rcases hit with ⟨err, ho, hit⟩ | ⟨pid, waitErr, w, ho, hit⟩
  · exact ⟨args, _, hargs, by rw [hit, ho]; rfl, by simp [isStart]⟩
  · exact ⟨args, _, hargs, by rw [hit, ho]; rfl, by simp [isStart]⟩

theorem runLoop_cons (loc : Local) (run : Nat) (l : Launch) (rest : List Launch)
    (h : RangeOrder loc.syscalls l.order) :
    runLoop loc run (l :: rest) =
      ((iteration loc l).1 ++ (runLoop loc (run + 1) rest).1, (runLoop loc (run + 1) rest).2) := by
  obtain ⟨args, _, hit⟩ := iteration_shape loc l h
  rcases hit with ⟨err, _, hit⟩ | ⟨pid, waitErr, w, _, hit⟩
  · rw [runLoop, hit]
  · rw [runLoop, hit]

theorem runLoop_snoc (loc : Local) (run : Nat) (ls : List Launch) (l : Launch)
    (hls : ∀ x ∈ ls, RangeOrder loc.syscalls x.order) (hl : RangeOrder loc.syscalls l.order) :
    runLoop loc run (ls ++ [l]) =
      ((runLoop loc run ls).1 ++ (iteration loc l).1, .looping (run + ls.length + 1)) := by
  induction ls generalizing run with
  | nil =>
    rw [List.nil_append, runLoop_cons loc run l [] hl]
    simp [runLoop]
  | cons x rest ih =>
    have hx := hls x (List.mem_cons_self _ _)
    have hrest : ∀ y ∈ rest, RangeOrder loc.syscalls y.order :=
      fun y hy => hls y (List.mem_cons_of_mem _ hy)
    rw [List.cons_append, runLoop_cons loc run x _ hx, ih (run + 1) hrest,
      runLoop_cons loc run x rest hx]
    simp only [List.append_assoc, List.length_cons, Prod.mk.injEq, true_and,
      RunStatus.looping.injEq]
    omega

theorem runLoop_status (loc : Local) (run : Nat) (ls : List Launch)
    (hls : ∀ x ∈ ls, RangeOrder loc.syscalls x.order) :
    (runLoop loc run ls).2 = .looping (run + ls.length) := by
  induction ls generalizing run with
  | nil => simp [runLoop]
  | cons x rest ih =>
    rw [runLoop_cons loc run x rest (hls x (List.mem_cons_self _ _))]
    simp only [List.length_cons]
    rw [ih (run + 1) (fun y hy => hls y (List.mem_cons_of_mem _ hy))]
    congr 1
    omega

theorem runLoop_starts (loc : Local) (run : Nat) (ls : List Launch)
    (hls : ∀ x ∈ ls, RangeOrder loc.syscalls x.order) :
    ((runLoop loc run ls).1.filter isStart).length = ls.length := by
  induction ls generalizing run with
  | nil => simp [runLoop]
  | cons x rest ih =>
    have hx := hls x (List.mem_cons_self _ _)
    rw [runLoop_cons loc run x rest hx, List.filter_append, List.length_append,
      ih (run + 1) (fun y hy => hls y (List.mem_cons_of_mem _ hy))]
    obtain ⟨args, _, hit⟩ := iteration_shape loc x hx
    rcases hit with ⟨err, _, hit⟩ | ⟨pid, waitErr, w, _, hit⟩
    · rw [hit]; simp [isStart, List.filter]; omega
    · rw [hit]; simp [isStart, List.filter]; omega

/-- The trace of `Run` grows by one pass through the loop body per launch. -/
theorem run_snoc_trace (loc : Local) (ls : List Launch) (l : Launch)
    (hls : ∀ x ∈ ls, RangeOrder loc.syscalls x.order) (hl : RangeOrder loc.syscalls l.order) :
    (Run loc (ls ++ [l])).1 = (Run loc ls).1 ++ (iteration loc l).1 := by
  show Op.Printf _ :: (runLoop loc 0 (ls ++ [l])).1
    = (Op.Printf _ :: (runLoop loc 0 ls).1) ++ (iteration loc l).1
  rw [runLoop_snoc loc 0 ls l hls hl, List.cons_append]

/-- After a launch the trace ends with the events of that launch and its backoff. -/
theorem run_ends_with_launch (loc : Local) (ls : List Launch) (l : Launch)
    (hls : ∀ x ∈ ls, RangeOrder loc.syscalls x.order) (hl : RangeOrder loc.syscalls l.order) :
    EndsWithLaunch loc l (Run loc (ls ++ [l])).1 := by
  rw [run_snoc_trace loc ls l hls hl]
  obtain ⟨args, hargs, hit⟩ := iteration_shape loc l hl
  refine ⟨(Run loc ls).1, args, hargs, ?_⟩
  rcases hit with ⟨err, ho, hit⟩ | ⟨pid, waitErr, w, ho, hit⟩
  · exact Or.inl ⟨err, ho, by rw [hit]⟩
  · exact Or.inr ⟨pid, waitErr, w, ho, by rw [hit]⟩

/-- A launch attempt in the trace is the attempt of one of the launches, and what precedes
it is the trace of the launches before that one. -/
theorem run_split_at_start (loc : Local) (ls : List Launch)
    (hls : ∀ x ∈ ls, RangeOrder loc.syscalls x.order)
    (pre post : List Op) (args : List String) (dir : String) (res : StartResult)
    (hsplit : (Run loc ls).1 = pre ++ Op.Start args dir res :: post) :
    ∃ before l after, ls = before ++ l :: after ∧ pre = (Run loc before).1 ∧
      cmdArgs loc l.order = some args ∧ dir = loc.workdir ∧ res = startResult l.outcome := by
  induction ls using List.reverseRecOn generalizing pre post args dir res with
  | nil =>
    exfalso
    have hmem : Op.Start args dir res ∈ (Run loc []).1 := by
      rw [hsplit]; simp
    simp [Run, runLoop] at hmem
  | append_singleton init l ih =>
    have hinit : ∀ x ∈ init, RangeOrder loc.syscalls x.order :=
      fun x hx => hls x (List.mem_append_left _ hx)
    have hl : RangeOrder loc.syscalls l.order :=
      hls l (List.mem_append_right _ (List.mem_singleton_self _))
    obtain ⟨a, tail, ha, htl, hno⟩ := iteration_head loc l hl
    rw [run_snoc_trace loc init l hinit hl, htl] at hsplit
    -- the split at the attempt of the last launch
    have hlast : ∀ post0, Op.Start a loc.workdir (startResult l.outcome) :: tail
          = Op.Start args dir res :: post0 →
        ∃ before x after, init ++ [l] = before ++ x :: after ∧
          (Run loc init).1 = (Run loc before).1 ∧ cmdArgs loc x.order = some args ∧
          dir = loc.workdir ∧ res = startResult x.outcome := by
      intro post0 h
      simp only [List.cons.injEq, Op.Start.injEq] at h
      obtain ⟨⟨h1, h2, h3⟩, _⟩ := h
      exact ⟨init, l, [], rfl, rfl, by rw [← h1]; exact ha, h2.symm, h3.symm⟩
    rcases List.append_eq_append_iff.mp hsplit with ⟨m, hpre, hm⟩ | ⟨m, hpre, hm⟩
    · cases m with
      | nil =>
        rw [List.append_nil] at hpre
        rw [List.nil_append] at hm
        rw [hpre]
        exact hlast post hm
      | cons x m =>
        exfalso
        simp only [List.cons_append, List.cons.injEq] at hm
        have hmem : Op.Start args dir res ∈ tail := by
          rw [hm.2]; simp
        have := hno _ hmem
        simp [isStart] at this
    · cases m with
      | nil =>
        rw [List.append_nil] at hpre
        rw [List.nil_append] at hm
        rw [← hpre]
        exact hlast post hm.symm
      | cons x m =>
        simp only [List.cons_append, List.cons.injEq] at hm
        obtain ⟨hx, _⟩ := hm
        rw [← hx] at hpre
        obtain ⟨before, y, after, hdec, hp, hy⟩ := ih hinit pre m args dir res hpre
        exact ⟨before, y, after ++ [l], by rw [hdec]; simp, hp, hy⟩

/-! ## The claim on the supervisor loop -/

/-- C9: fed with any finite sequence of launch outcomes (start failure, or start and exit
with any status, by itself or by the watchdog), `Run` is still in its loop, having made one
launch attempt per outcome. After the last launch the trace ends with that launch's own
events: its failed start, log line and 10-second sleep, or its start, the return of
`cmd.Wait()` for the process it started, the log line and the 10-second sleep. Whatever
the next outcome is, `Run` makes one more launch attempt, with that outcome as result,
and is in its loop again. Every launch attempt in the trace is the attempt of one of the
launches, preceded by exactly the trace of the launches before it: the start line alone
for the first, and otherwise a trace ending with the previous launch's events, so with the
10-second sleep that follows the previous start failure or the return of the previous
process's wait. -/
theorem C9_run_loops_forever_with_backoff (loc : Local) (launches : List Launch)
    (hord : ∀ l ∈ launches, RangeOrder loc.syscalls l.order) :
    (Run loc launches).2 = .looping launches.length
    ∧ ((Run loc launches).1.filter isStart).length = launches.length
    ∧ (∀ before prev, launches = before ++ [prev] →
        EndsWithLaunch loc prev (Run loc launches).1)
    ∧ (∀ l, RangeOrder loc.syscalls l.order →
        (Run loc (launches ++ [l])).2 = .looping (launches.length + 1)
        ∧ EndsWithLaunch loc l (Run loc (launches ++ [l])).1
        ∧ ∃ args tail, cmdArgs loc l.order = some args
            ∧ (Run loc (launches ++ [l])).1
                = (Run loc launches).1 ++ Op.Start args loc.workdir (startResult l.outcome) :: tail
            ∧ ∀ x ∈ tail, isStart x = false)
    ∧ ∀ pre args dir res post, (Run loc launches).1 = pre ++ Op.Start args dir res :: post →
        ∃ before l after, launches = before ++ l :: after
          ∧ pre = (Run loc before).1
          ∧ cmdArgs loc l.order = some args ∧ dir = loc.workdir ∧ res = startResult l.outcome
          ∧ (before = [] → pre = [Op.Printf ("local-" ++ Sprint loc.id ++ ": started\n")])
          ∧ (∀ b0 prev, before = b0 ++ [prev] → EndsWithLaunch loc prev pre) := by
  refine ⟨?_, ?_, ?_, ?_, ?_⟩
  · show (runLoop loc 0 launches).2 = _
    rw [runLoop_status loc 0 launches hord, Nat.zero_add]
  · show ((Op.Printf _ :: (runLoop loc 0 launches).1).filter isStart).length = _
    rw [List.filter_cons_of_neg (by simp [isStart])]
    exact runLoop_starts loc 0 launches hord
  · intro before prev hdec
    subst hdec
    exact run_ends_with_launch loc before prev
      (fun x hx => hord x (List.mem_append_left _ hx))
      (hord prev (List.mem_append_right _ (List.mem_singleton_self _)))
  · intro l hl
    refine ⟨?_, run_ends_with_launch loc launches l hord hl, ?_⟩
    · show (runLoop loc 0 (launches ++ [l])).2 = _
      rw [runLoop_snoc loc 0 launches l hord hl, Nat.zero_add]
    · obtain ⟨args, tail, hargs, htl, hno⟩ := iteration_head loc l hl
      exact ⟨args, tail, hargs, by rw [run_snoc_trace loc launches l hord hl, htl], hno⟩
  · intro pre args dir res post hsplit
    obtain ⟨before, l, after, hdec, hpre, hargs, hdir, hres⟩ :=
      run_split_at_start loc launches hord pre post args dir res hsplit
    refine ⟨before, l, after, hdec, hpre, hargs, hdir, hres, ?_, ?_⟩
    · intro hb
      rw [hpre, hb]
      rfl
    · intro b0 prev hb
      have hbefore : ∀ x ∈ before, RangeOrder loc.syscalls x.order := by
        intro x hx
        exact hord x (by rw [hdec]; exact List.mem_append_left _ hx)
      rw [hpre, hb]
      exact run_ends_with_launch loc b0 prev
        (fun x hx => hbefore x (by rw [hb]; exact List.mem_append_left _ hx))
        (hbefore prev (by rw [hb]; exact List.mem_append_right _ (List.mem_singleton_self _)))

/-- C9 at three launches: a start failure, a watchdog kill and a clean exit. `Run` is at
the head of its fourth iteration, and the trace ends with the events of the third launch:
the wait for process 4243 has returned and the 10-second sleep has followed. -/
theorem C9_witness :
    (Run workerWithSet threeLaunches).2 = .looping 3
    ∧ EndsWithLaunch workerWithSet ⟨[0, 1], .exited 4243 none false⟩
        (Run workerWithSet threeLaunches).1 :=
  ⟨(C9_run_loops_forever_with_backoff workerWithSet threeLaunches (by decide)).1,
   (C9_run_loops_forever_with_backoff workerWithSet threeLaunches (by decide)).2.2.1
      [⟨[0, 1], .startFailed "exec: not found"⟩,
       ⟨[1, 0], .exited 4242 (some "signal: killed") true⟩]
      ⟨[0, 1], .exited 4243 none false⟩ rfl⟩

end Syzkaller
